import Mathlib

/-!
Verification of the Active Harmony simplex-strategy core: a shallow embedding
of the PRO strategy (build/strategies/pro.c) and the ANGEL strategy
(src/plugins/strategies/angel.c), together with the vertex/simplex primitives
they consume.  C doubles are modelled by the type `F` below (rationals plus
the IEEE special values, without NaN payloads or signed zeros); machine
state is modelled by explicit records, and the strategy entry points become
state-passing functions.  Pieces of the program that live in files outside
the provided sources (libvertex.c, hperf.c) are modelled from the
specification and are marked as such in their doc comments.
-/

/-- Model of a C `double`: a rational number, one of the two infinities
(`HUGE_VAL` and `-HUGE_VAL`), or NaN.  Signed zeros and NaN payloads are not
modelled; where a division by zero would consult the sign of a zero, the
zero is treated as `+0`. -/
inductive F where
  | nan : F
  | ninf : F
  | fin : ℚ → F
  | inf : F
deriving DecidableEq, Repr

/-- IEEE `<` on doubles: any comparison involving NaN is false. -/
def F.blt : F → F → Bool
  | .nan, _ => false
  | _, .nan => false
  | .ninf, .ninf => false
  | .ninf, _ => true
  | _, .ninf => false
  | .fin a, .fin b => a < b
  | .fin _, .inf => true
  | .inf, _ => false

/-- IEEE `<=` on doubles: any comparison involving NaN is false. -/
def F.ble : F → F → Bool
  | .nan, _ => false
  | _, .nan => false
  | .ninf, _ => true
  | _, .ninf => false
  | .fin a, .fin b => a ≤ b
  | _, .inf => true
  | .inf, _ => false

/-- IEEE `isnan`. -/
def F.isnan : F → Bool
  | .nan => true
  | _ => false

/-- IEEE negation. -/
def F.neg : F → F
  | .nan => .nan
  | .ninf => .inf
  | .inf => .ninf
  | .fin a => .fin (-a)

/-- IEEE addition (`inf + ninf = nan`). -/
def F.add : F → F → F
  | .nan, _ => .nan
  | _, .nan => .nan
  | .inf, .ninf => .nan
  | .ninf, .inf => .nan
  | .inf, _ => .inf
  | _, .inf => .inf
  | .ninf, _ => .ninf
  | _, .ninf => .ninf
  | .fin a, .fin b => .fin (a + b)

/-- IEEE subtraction. -/
def F.sub (a b : F) : F := a.add b.neg

/-- IEEE multiplication (`0 * inf = nan`). -/
def F.mul : F → F → F
  | .nan, _ => .nan
  | _, .nan => .nan
  | .inf, .inf => .inf
  | .inf, .ninf => .ninf
  | .ninf, .inf => .ninf
  | .ninf, .ninf => .inf
  | .inf, .fin b => if 0 < b then .inf else if b < 0 then .ninf else .nan
  | .fin a, .inf => if 0 < a then .inf else if a < 0 then .ninf else .nan
  | .ninf, .fin b => if 0 < b then .ninf else if b < 0 then .inf else .nan
  | .fin a, .ninf => if 0 < a then .ninf else if a < 0 then .inf else .nan
  | .fin a, .fin b => .fin (a * b)

/-- IEEE division (`inf / inf = nan`, `0 / 0 = nan`, `x / 0 = ±inf` with the
zero read as `+0`, `x / inf = 0`). -/
def F.div : F → F → F
  | .nan, _ => .nan
  | _, .nan => .nan
  | .inf, .inf => .nan
  | .inf, .ninf => .nan
  | .ninf, .inf => .nan
  | .ninf, .ninf => .nan
  | .inf, .fin b => if b < 0 then .ninf else .inf
  | .ninf, .fin b => if b < 0 then .inf else .ninf
  | .fin _, .inf => .fin 0
  | .fin _, .ninf => .fin 0
  | .fin a, .fin b =>
      if b = 0 then (if a = 0 then .nan else if 0 < a then .inf else .ninf)
      else .fin (a / b)

/-- IEEE-style model of C's `log` applied to an `F`, parametrised by a model
`logq` of the natural logarithm on positive rationals: `log` of a negative
number or NaN is NaN, `log 0 = -inf`, `log inf = inf`. -/
def Flog (logq : ℚ → ℚ) : F → F
  | .fin q => if 0 < q then .fin (logq q) else if q = 0 then .ninf else .nan
  | .inf => .inf
  | .ninf => .nan
  | .nan => .nan

/-- Read objective `i` of a performance vector (`perf.obj[i]`). -/
def objAt (p : List F) (i : ℕ) : F := p.getD i F.nan

/-- Write position `i` of a list (a no-op out of range, like the C writes
the model performs are all in range). -/
def listSet {α : Type} (l : List α) (i : ℕ) (a : α) : List α :=
  l.set i a

/-- The search space: per-dimension `(min, max)` bounds.  Modelled from the
spec for continuous dimensions, which is all the simplex strategies use of
`hspace` here. -/
abbrev Space := List (ℚ × ℚ)

/-- Modelled from the spec (libvertex.c is not under src/):
`vertex_transform(origin, v, c, out) → out = origin + c · (v − origin)`. -/
def vertex_transform_spec (origin v : List ℚ) (c : ℚ) : List ℚ :=
  List.zipWith (fun o x => o + c * (x - o)) origin v

/-- The transform that ANGEL's call sites in `nm_next_vertex` require for the
spec's Nelder-Mead step formulas (REFLECT `r = centroid + ρ·(centroid −
worst)`, CONTRACT `c = worst + γ·(centroid − worst)`, ...) to come out:
`out = origin + c · (origin − v)`, i.e. the spec's `vertex_transform`
formula with the displacement direction reversed. -/
def vertex_transform_rev (origin v : List ℚ) (c : ℚ) : List ℚ :=
  List.zipWith (fun o x => o + c * (o - x)) origin v

/-- Modelled from the spec (libvertex.c is not under src/): `vertex_inbounds`
is true iff every coordinate lies within its dimension's legal range. -/
def vertex_inbounds_terms (sp : Space) (t : List ℚ) : Bool :=
  (List.zip sp t).all (fun p => decide (p.1.1 ≤ p.2) && decide (p.2 ≤ p.1.2))

/-- Modelled from the spec (libvertex.c is not under src/): normalised L2
distance between two coordinate vectors.  Because the Euclidean norm is not
rational-valued, the embedding keeps the distance function abstract and
passes a model of it as a primitive; `dist1` below is the exact instance for
one-dimensional spaces, where the L2 norm is the absolute difference. -/
def dist1 (a b : List ℚ) : ℚ := |a.headD 0 - b.headD 0|

/-- Modelled from the spec: `vertex_center` is the midpoint of each
dimension. -/
def vertex_center_terms (sp : Space) : List ℚ := sp.map (fun d => (d.1 + d.2) / 2)

/-- Modelled from the spec: `vertex_minimum`, the lower corner of the space. -/
def vertex_minimum_terms (sp : Space) : List ℚ := sp.map (fun d => d.1)

/-- Modelled from the spec: `vertex_maximum`, the upper corner of the space. -/
def vertex_maximum_terms (sp : Space) : List ℚ := sp.map (fun d => d.2)

namespace Angel

/-- A vertex (`vertex_t`): a point id, coordinates, and a performance vector
(`perf.obj`). -/
structure Vertex where
  id : ℕ
  term : List ℚ
  perf : List F
deriving DecidableEq, Repr

instance : Inhabited Vertex := ⟨⟨0, [], []⟩⟩

/-- An `hpoint_t`: id plus coordinates. -/
structure Point where
  id : ℕ
  term : List ℚ
deriving DecidableEq, Repr

instance : Inhabited Point := ⟨⟨0, []⟩⟩

/-- A measured trial (`htrial_t`): the point it describes and its measured
performance vector. -/
structure Trial where
  id : ℕ
  term : List ℚ
  perf : List F
deriving DecidableEq, Repr

/-- `reject_method_t` of angel.c. -/
inductive RejectMethod where
  | penalty
  | random
deriving DecidableEq, Repr

/-- `simplex_state_t` of angel.c (the UNKNOWN state is the out-of-range
default arm of the C switches and is not a reachable value here). -/
inductive SimplexState where
  | INIT
  | REFLECT
  | EXPAND
  | CONTRACT
  | SHRINK
  | CONVERGED
deriving DecidableEq, Repr

/-- The address held by `data->next`, which in the C code is a pointer into
the strategy state: either a simplex slot or one of the scratch vertices. -/
inductive NextPtr where
  | simplexAt : ℕ → NextPtr
  | reflectV
  | expandV
  | contractV
deriving DecidableEq, Repr

/-- `data_t` of angel.c, with the session-visible configuration outputs
(`CONVERGED`, `ANGEL_PHASE`) carried as extra fields.  Doubles that the code
may leave at their calloc value or compare with `isnan` are kept as `F`;
coefficients that pass the numeric validation in `config_strategy` are kept
as rationals. -/
structure State where
  space : Space
  best : Point
  best_perf : List F
  init_point : List ℚ
  init_radius : ℚ
  reject_type : RejectMethod
  reflect_val : ℚ
  expand_val : ℚ
  contract_val : ℚ
  shrink_val : ℚ
  fval_tol : F
  size_tol : F
  dist_tol : F
  move_len : F
  space_size : ℚ
  tol_cnt : ℤ
  leeway : List ℚ
  mult : ℚ
  anchor : Bool
  loose : Bool
  samesimplex : Bool
  state : SimplexState
  centroid : Vertex
  reflect : Vertex
  expand : Vertex
  contract : Vertex
  init_simplex : List Vertex
  simplex : List Vertex
  next : NextPtr
  index_best : ℕ
  index_worst : ℕ
  index_curr : ℤ
  next_id : ℕ
  phase : ℤ
  perf_n : ℕ
  thresh : List F
  span : List (F × F)
  flat_cnt : ℕ
  dist_cnt : ℕ
  converged_cfg : Bool
  angel_phase_cfg : ℤ
deriving DecidableEq, Repr

/-- The fresh, zeroed state `strategy_alloc` returns: calloc zeroes every
field, then `next_id = 1` and `phase = -1` are set.  In particular
`dist_tol` is the double `+0.0`, not NaN. -/
def strategy_alloc : State where
  space := []
  best := ⟨0, []⟩
  best_perf := []
  init_point := []
  init_radius := 0
  reject_type := .penalty
  reflect_val := 0
  expand_val := 0
  contract_val := 0
  shrink_val := 0
  fval_tol := F.fin 0
  size_tol := F.fin 0
  dist_tol := F.fin 0
  move_len := F.fin 0
  space_size := 0
  tol_cnt := 0
  leeway := []
  mult := 0
  anchor := false
  loose := false
  samesimplex := false
  state := .INIT
  centroid := default
  reflect := default
  expand := default
  contract := default
  init_simplex := []
  simplex := []
  next := .simplexAt 0
  index_best := 0
  index_worst := 0
  index_curr := 0
  next_id := 1
  phase := -1
  perf_n := 0
  thresh := []
  span := []
  flat_cnt := 0
  dist_cnt := 0
  converged_cfg := false
  angel_phase_cfg := 0

instance : Inhabited State := ⟨strategy_alloc⟩

/-- Dereference `data->next`. -/
def getNext (s : State) : Vertex :=
  match s.next with
  | .simplexAt i => s.simplex.getD i default
  | .reflectV => s.reflect
  | .expandV => s.expand
  | .contractV => s.contract

/-- Write through `data->next`. -/
def setNext (s : State) (v : Vertex) : State :=
  match s.next with
  | .simplexAt i => { s with simplex := listSet s.simplex i v }
  | .reflectV => { s with reflect := v }
  | .expandV => { s with expand := v }
  | .contractV => { s with contract := v }

/-- Mutate the vertex `data->next` points at. -/
def modifyNext (s : State) (f : Vertex → Vertex) : State :=
  setNext s (f (getNext s))

/-- Modelled from the spec (hperf.c is not under src/): `hperf_reset` sets
the performance to +∞ across all objectives (spec section 4.4: the penalty
rejection method applies an infinite penalty via `hperf_reset`). -/
def hperf_reset (p : List F) : List F := p.map (fun _ => F.inf)

/-- Modelled from the spec (libvertex.c is not under src/): `vertex_point`
projects a vertex onto aligned legal values.  On continuous in-bounds
dimensions the projection is the identity, so the emitted point carries the
vertex's id and coordinates. -/
def vertex_point (v : Vertex) : Point := ⟨v.id, v.term⟩

/-- The primitives of the embedding that live outside the provided sources:
`vt` is `vertex_transform` (libvertex.c), `dist` is the normalised L2 norm
`vertex_norm(·, ·, VERTEX_NORM_L2)` (libvertex.c), `logq` models the natural
logarithm on positive rationals (libm), `simplex_set` is libvertex's
regular-simplex construction, returning the coordinate rows of the initial
simplex for a given space, centroid and radius fraction, and
`cfg_init_point` is the session's `INIT_POINT` configuration entry, which
`make_initial_simplex` re-reads on every call. -/
structure Prims where
  vt : List ℚ → List ℚ → ℚ → List ℚ
  dist : List ℚ → List ℚ → ℚ
  logq : ℚ → ℚ
  simplex_set : Space → List ℚ → ℚ → Option (List (List ℚ))
  cfg_init_point : Option (List ℚ)

end Angel

namespace Angel

/-- Elementwise sum of rational coordinate rows. -/
def listSumQ (ls : List (List ℚ)) (len : ℕ) : List ℚ :=
  ls.foldl (fun acc l => List.zipWith (· + ·) acc l) (List.replicate len 0)

/-- Elementwise IEEE sum of performance vectors. -/
def listSumF (ls : List (List F)) (len : ℕ) : List F :=
  ls.foldl (fun acc l => List.zipWith F.add acc l) (List.replicate len (F.fin 0))

/-- Modelled from the spec (libvertex.c is not under src/):
`simplex_centroid` writes into the output vertex the arithmetic mean of the
vertices whose id ≠ 0, averaging coordinates and performance alike. -/
def simplex_centroid (sx : List Vertex) (dims pn : ℕ) (out : Vertex) : Vertex :=
  let act := sx.filter (fun v => v.id != 0)
  let n := act.length
  let terms := (listSumQ (act.map (·.term)) dims).map (fun q => q / (n : ℚ))
  let perfs := (listSumF (act.map (·.perf)) pn).map (fun x => F.div x (F.fin n))
  { out with term := terms, perf := perfs }

/-- Modelled from the spec (libvertex.c is not under src/):
`simplex_collapsed` is true iff all vertices project to the same aligned
point; on continuous in-bounds dimensions the projection is the identity,
so this is coordinate-list equality. -/
def simplex_collapsed (sx : List Vertex) : Bool :=
  match sx with
  | [] => true
  | v :: rest => rest.all (fun u => u.term == v.term)

/-- Modelled from the spec: `simplex_transform(s, pivot, c, out)` applies
`vertex_transform(pivot, s[i], c, out[i])` element-wise.  ANGEL calls it in
place with the pivot pointing into the same simplex, so the pivot is re-read
from the partially updated simplex at each step, exactly as the C pointer
aliasing does. -/
def simplex_transform_at (vt : List ℚ → List ℚ → ℚ → List ℚ)
    (sx : List Vertex) (pividx : ℕ) (c : ℚ) : List Vertex :=
  (List.range sx.length).foldl
    (fun acc i =>
      let piv := acc.getD pividx default
      let v := acc.getD i default
      listSet acc i { v with term := vt piv.term v.term c })
    sx

/-- The best/worst index scan at the head of angel.c's `update_centroid`. -/
def scanBestWorst (s : State) : ℕ × ℕ :=
  (List.range s.simplex.length).foldl
    (fun bw i =>
      let pi := objAt (s.simplex.getD i default).perf s.phase.toNat
      let b := if F.blt pi (objAt (s.simplex.getD bw.1 default).perf s.phase.toNat)
               then i else bw.1
      let w := if F.blt (objAt (s.simplex.getD bw.2 default).perf s.phase.toNat) pi
               then i else bw.2
      (b, w))
    (0, 0)

/-- `update_centroid` of angel.c: recompute `index_best` / `index_worst`,
then compute the centroid with the worst vertex excluded by temporarily
zeroing its id (the original simplex is untouched afterwards, matching the
stash-and-restore in the C code). -/
def update_centroid (s : State) : State :=
  let bw := scanBestWorst s
  let s := { s with index_best := bw.1, index_worst := bw.2 }
  let wv := s.simplex.getD s.index_worst default
  let zeroed := listSet s.simplex s.index_worst { wv with id := 0 }
  { s with centroid := simplex_centroid zeroed s.space.length s.perf_n s.centroid }

/-- `nm_state_transition` of angel.c.  The C default arm (reached only in
the UNKNOWN state, which this model does not represent, or in CONVERGED,
from which `nm_algorithm` never calls it) returns failure. -/
def nm_state_transition (s : State) : Option State :=
  match s.state with
  | .INIT | .SHRINK =>
      let ic := s.index_curr + 1
      if ic = s.space.length + 1 then
        let s := update_centroid { s with index_curr := ic }
        some { s with state := .REFLECT, index_curr := 0 }
      else
        some { s with index_curr := ic }
  | .REFLECT =>
      let ph := s.phase.toNat
      if F.blt (objAt s.reflect.perf ph)
          (objAt (s.simplex.getD s.index_best default).perf ph) then
        some { s with state := .EXPAND }
      else if F.blt (objAt s.reflect.perf ph)
          (objAt (s.simplex.getD s.index_worst default).perf ph) then
        some (update_centroid
          { s with simplex := listSet s.simplex s.index_worst s.reflect })
      else
        some { s with state := .CONTRACT }
  | .EXPAND =>
      let ph := s.phase.toNat
      let s :=
        if F.blt (objAt s.expand.perf ph)
            (objAt (s.simplex.getD s.index_best default).perf ph) then
          { s with simplex := listSet s.simplex s.index_worst s.expand }
        else
          { s with simplex := listSet s.simplex s.index_worst s.reflect }
      some { (update_centroid s) with state := .REFLECT }
  | .CONTRACT =>
      let ph := s.phase.toNat
      if F.blt (objAt s.contract.perf ph)
          (objAt (s.simplex.getD s.index_worst default).perf ph) then
        let s := update_centroid
          { s with simplex := listSet s.simplex s.index_worst s.contract }
        some { s with state := .REFLECT }
      else
        some { s with index_curr := -1, state := .SHRINK }
  | .CONVERGED => none

/-- `make_initial_simplex` of angel.c: centre from the `INIT_POINT`
configuration entry (or the space centre), then the regular-simplex
construction at `init_radius`. -/
def make_initial_simplex (pr : Prims) (s : State) : Option State :=
  let ip :=
    match pr.cfg_init_point with
    | some t => t
    | none => vertex_center_terms s.space
  let s := { s with init_point := ip }
  match pr.simplex_set s.space ip s.init_radius with
  | none => none
  | some rows =>
      let mkv := fun (t : List ℚ) =>
        ({ id := 0, term := t, perf := List.replicate s.perf_n (F.fin 0) } : Vertex)
      some { s with init_simplex := rows.map mkv }

/-- The tail of `increment_phase` (after the optional simplex rebuild):
reinstall the initial simplex, overwrite the vertex closest to the
carried-over best when anchoring is enabled, reset the best tracking and
enter INIT. -/
def increment_phase_post (pr : Prims) (s : State) : State :=
  let s := { s with simplex := s.init_simplex }
  let s :=
    if 0 < s.best.id && s.anchor then
      let md := (List.range s.simplex.length).foldl
        (fun (mi : F × ℤ) i =>
          let cd := F.fin (pr.dist s.centroid.term ((s.simplex.getD i default).term))
          if F.blt cd mi.1 then (cd, Int.ofNat i) else mi)
        (F.inf, -1)
      { s with simplex := listSet s.simplex md.2.toNat s.centroid }
    else s
  { s with best_perf := hperf_reset s.best_perf,
           best := { s.best with id := 0 },
           state := SimplexState.INIT }

/-- `increment_phase` of angel.c: fix the previous phase's threshold from
its observed span and leeway, advance the phase, remember the previous
phase's best vertex in the centroid scratch slot, rebuild the initial
simplex unless `samesimplex`, and run the tail above. -/
def increment_phase (pr : Prims) (s : State) : Option State :=
  let s :=
    if 0 ≤ s.phase then
      let ph := s.phase.toNat
      let sp := s.span.getD ph (F.inf, F.ninf)
      let tval := F.add (F.mul (F.sub sp.2 sp.1) (F.fin (s.leeway.getD ph 0))) sp.1
      { s with thresh := listSet s.thresh ph tval }
    else s
  let s := { s with phase := s.phase + 1 }
  let s := { s with angel_phase_cfg := s.phase }
  let s := { s with centroid := s.simplex.getD s.index_best default }
  if !s.samesimplex then
    match make_initial_simplex pr s with
    | none => none
    | some s => some (increment_phase_post pr s)
  else some (increment_phase_post pr s)

/-- The function-value variance of the simplex about the centroid
(`check_convergence`'s `fval_err`). -/
def cc_fval_err (s : State) : F :=
  let ph := s.phase.toNat
  let base_val := objAt s.centroid.perf ph
  F.div
    (s.simplex.foldl
      (fun acc v =>
        let d := F.sub (objAt v.perf ph) base_val
        F.add acc (F.mul d d))
      (F.fin 0))
    (F.fin s.simplex.length)

/-- The largest vertex-to-centroid distance (`check_convergence`'s
`size_max`). -/
def cc_size_max (dist : List ℚ → List ℚ → ℚ) (s : State) : F :=
  s.simplex.foldl
    (fun acc v =>
      let d := F.fin (dist v.term s.centroid.term)
      if F.blt acc d then d else acc)
    (F.fin 0)

/-- The flatness test at the head of `check_convergence`: true iff no two
simplex objective values differ under IEEE comparison. -/
def cc_flat (s : State) : Bool :=
  let ph := s.phase.toNat
  let p0 := objAt (s.simplex.getD 0 default).perf ph
  (List.range s.simplex.length).all
    (fun i =>
      let pi := objAt (s.simplex.getD i default).perf ph
      !(F.blt pi p0 || F.blt p0 pi))

/-- The `converged:` label of `check_convergence`: in the final phase set
the CONVERGED state and the `CONVERGED` configuration flag, otherwise
advance a phase. -/
def cc_converged (pr : Prims) (s : State) : Option State :=
  if s.phase = (s.perf_n : ℤ) - 1 then
    some { s with state := .CONVERGED, converged_cfg := true }
  else
    increment_phase pr s

/-- `check_convergence` of angel.c: the flatness counter, the collapse test,
then either the reflection-distance test (when `dist_tol` is not NaN) or the
size/fval test. -/
def check_convergence (pr : Prims) (s : State) : Option State :=
  if cc_flat s && s.flat_cnt + 1 ≥ 3 then
    cc_converged pr { s with flat_cnt := 0 }
  else
    let s := if cc_flat s then { s with flat_cnt := s.flat_cnt + 1 }
             else { s with flat_cnt := 0 }
    if simplex_collapsed s.simplex then cc_converged pr s
    else if !(F.isnan s.dist_tol) then
      if F.blt s.move_len s.dist_tol then
        if (s.dist_cnt + 1 : ℤ) ≥ s.tol_cnt then
          cc_converged pr { s with dist_cnt := 0 }
        else some { s with dist_cnt := s.dist_cnt + 1 }
      else some { s with dist_cnt := 0 }
    else
      if F.blt (cc_fval_err s) s.fval_tol
          && F.blt (cc_size_max pr.dist s) s.size_tol then
        cc_converged pr s
      else some s

/-- `nm_next_vertex` of angel.c: prepare the vertex the state machine wants
measured next, point `data->next` at it, and reset its performance. -/
def nm_next_vertex (pr : Prims) (s : State) : Option State :=
  let reset := fun (s : State) =>
    some (modifyNext s (fun v => { v with perf := hperf_reset v.perf }))
  match s.state with
  | .INIT =>
      reset { s with next := .simplexAt s.index_curr.toNat }
  | .REFLECT =>
      let worst := s.simplex.getD s.index_worst default
      let r := { s.reflect with term := pr.vt s.centroid.term worst.term s.reflect_val }
      let ml := F.div (F.fin (pr.dist worst.term r.term)) (F.fin s.space_size)
      reset { s with reflect := r, move_len := ml, next := .reflectV }
  | .EXPAND =>
      let worst := s.simplex.getD s.index_worst default
      let e := { s.expand with term := pr.vt s.centroid.term worst.term s.expand_val }
      reset { s with expand := e, next := .expandV }
  | .CONTRACT =>
      let worst := s.simplex.getD s.index_worst default
      let c := { s.contract with
                 term := pr.vt worst.term s.centroid.term (-s.contract_val) }
      reset { s with contract := c, next := .contractV }
  | .SHRINK =>
      let s :=
        if s.index_curr = -1 then
          { s with
            simplex := simplex_transform_at pr.vt s.simplex s.index_best (-s.shrink_val),
            index_curr := 0 }
        else s
      reset { s with next := .simplexAt s.index_curr.toNat }
  | .CONVERGED =>
      reset { s with next := .simplexAt s.index_best }

/-- `nm_algorithm` of angel.c: run state transitions (with the centroid
update and convergence check on every entry into REFLECT) until the next
test vertex is in bounds.  The C do-while can in principle loop forever; the
model bounds it with fuel and returns failure when the fuel runs out. -/
def nm_algorithm (pr : Prims) : ℕ → State → Option State
  | fuel, s =>
    if s.state = SimplexState.CONVERGED then some s
    else
      match fuel with
      | 0 => none
      | fuel + 1 =>
        match nm_state_transition s with
        | none => none
        | some s =>
          let step :=
            if s.state = SimplexState.REFLECT then
              check_convergence pr (update_centroid s)
            else some s
          match step with
          | none => none
          | some s =>
            match nm_next_vertex pr s with
            | none => none
            | some s =>
              if vertex_inbounds_terms s.space (getNext s).term then some s
              else nm_algorithm pr fuel s

/-- The per-objective span update at the top of `strategy_analyze` (angel.c
lines 325-332): the minimum is pulled down by any measured value, the
maximum is pushed up only by values strictly below `HUGE_VAL`. -/
def span_update (sp : F × F) (v : F) : F × F :=
  let mn := if F.blt v sp.1 then v else sp.1
  let mx := if F.blt sp.2 v && F.blt v F.inf then v else sp.2
  (mn, mx)

/-- The span-update loop over all objectives. -/
def span_update_all (n : ℕ) (perf : List F) (span : List (F × F)) :
    List (F × F) :=
  (List.range n).foldl
    (fun sp i => listSet sp i (span_update (sp.getD i (F.inf, F.ninf)) (objAt perf i)))
    span

/-- The violation-accumulation loop of `strategy_analyze` (angel.c lines
334-347): walking the given objective indices, accumulating `penalty` and
doubling `penalty_base` after every step whether or not that objective
violated its threshold. -/
def penalty_fold (logq : ℚ → ℚ) (obj thresh spanmax : ℕ → F) (loose : Bool) :
    List ℕ → F × F → F × F
  | [], pb => pb
  | i :: rest, pb =>
      let p :=
        if F.blt (thresh i) (obj i) then
          let p := if !loose then F.add pb.1 pb.2 else pb.1
          let fraction := F.div (F.sub (obj i) (thresh i))
                                (F.sub (spanmax i) (thresh i))
          F.add p (F.div (F.fin 1) (F.sub (F.fin 1) (Flog logq fraction)))
        else pb.1
      penalty_fold logq obj thresh spanmax loose rest (p, F.mul pb.2 (F.fin 2))

/-- The descending index list `ph-1, ..., 0` that the C for-loop walks. -/
def downFrom (ph : ℕ) : List ℕ := (List.range ph).reverse

/-- The penalty block of `strategy_analyze` (angel.c lines 334-357): compute
the aggregated violation penalty over the objectives of priority below `ph`
and, when it is positive (adding the single loose-mode `+1.0` first), add
`penalty * (span[ph].max - span[ph].min) * mult` to objective `ph` of the
given performance vector. -/
def apply_penalty (logq : ℚ → ℚ) (ph : ℕ) (loose : Bool) (mult : ℚ)
    (span : List (F × F)) (thresh : List F) (perf : List F) : List F :=
  let pen := (penalty_fold logq (objAt perf) (objAt thresh)
    (fun i => (span.getD i (F.inf, F.ninf)).2) loose (downFrom ph)
    (F.fin 0, F.fin 1)).1
  if F.blt (F.fin 0) pen then
    let pen := if loose then F.add pen (F.fin 1) else pen
    let sp := span.getD ph (F.inf, F.ninf)
    let add := F.mul (F.mul pen (F.sub sp.2 sp.1)) (F.fin mult)
    listSet perf ph (F.add (objAt perf ph) add)
  else perf

/-- The measurement block of `strategy_analyze` (angel.c lines 322-357):
copy the trial performance through `data->next`, update the observed spans,
and apply the violation penalty in place through `data->next`. -/
def measured_state (pr : Prims) (s : State) (trial : Trial) : State :=
  let s := modifyNext s (fun v => { v with perf := trial.perf })
  let s := { s with span := span_update_all s.perf_n (getNext s).perf s.span }
  let ph := s.phase.toNat
  modifyNext s (fun v =>
    { v with perf := apply_penalty pr.logq ph s.loose s.mult s.span s.thresh v.perf })

/-- The best-update block of `strategy_analyze` (angel.c lines 359-372):
adopt the analysed point as the best when no best is recorded yet
(`best_perf.len == 0`) or its (penalty-adjusted) objective for the current
phase improves on the recorded best. -/
def best_update (s : State) (trial : Trial) : State :=
  let ph := s.phase.toNat
  if s.best_perf.length = 0
      || F.blt (objAt (getNext s).perf ph) (objAt s.best_perf ph) then
    { s with best_perf := (getNext s).perf, best := ⟨trial.id, trial.term⟩ }
  else s

/-- `strategy_analyze` of angel.c: reject trials whose id is not the
outstanding one, run the measurement block and the best-update block, run
the Nelder-Mead algorithm, and allocate the next candidate id unless the
search has converged. -/
def strategy_analyze (pr : Prims) (fuel : ℕ) (s : State) (trial : Trial) :
    Option State :=
  if trial.id ≠ (getNext s).id then none
  else
    let s := best_update (measured_state pr s trial) trial
    match nm_algorithm pr fuel s with
    | none => none
    | some s =>
        if s.state ≠ SimplexState.CONVERGED then
          some { s with next_id := s.next_id + 1 }
        else some s

/-- The result of `strategy_generate`: a WAIT flow status or an accepted
candidate point. -/
inductive GenOut where
  | wait
  | accept (p : Point)
deriving DecidableEq, Repr

/-- `strategy_generate` of angel.c: WAIT while the outstanding candidate has
not been analysed (its id still equals `next_id`), otherwise tag the next
vertex with `next_id` and emit it. -/
def strategy_generate (s : State) : GenOut × State :=
  if (getNext s).id = s.next_id then (.wait, s)
  else
    let s := modifyNext s (fun v => { v with id := s.next_id })
    (.accept (vertex_point (getNext s)), s)

/-- `strategy_rejected` of angel.c: adopt a hint if one is provided, else
apply the configured rejection method; `rnd` is the oracle for the random
replacement vertex. -/
def strategy_rejected (pr : Prims) (fuel : ℕ) (s : State)
    (hint : Option (List ℚ)) (rnd : List ℚ) : Option (Point × State) :=
  match hint with
  | some hterm =>
      let hid := (getNext s).id
      let s := modifyNext s (fun v => { v with id := hid, term := hterm })
      some (⟨hid, hterm⟩, s)
  | none =>
      match s.reject_type with
      | .penalty =>
          let s := modifyNext s (fun v => { v with perf := hperf_reset v.perf })
          match nm_algorithm pr fuel s with
          | none => none
          | some s =>
              let s := modifyNext s (fun v => { v with id := s.next_id })
              some (vertex_point (getNext s), s)
      | .random =>
          let s := modifyNext s (fun v => { v with term := rnd, id := s.next_id })
          some (vertex_point (getNext s), s)

/-- `strategy_best` of angel.c. -/
def strategy_best (s : State) : Point := s.best

/-- The configuration inputs `config_strategy` consumes, already through
string parsing: an `Option` field is `none` when the corresponding key with
a NULL default is unset (so that `hcfg_real` yields NaN) or, for `mult` and
`fval_tol`, when the provided string does not parse as a number.  Invalid
strings for the remaining always-present keys are outside this model. -/
structure Cfg where
  loose : Bool
  anchor : Bool
  samesimplex : Bool
  mult : Option ℚ
  init_radius : ℚ
  reject_method : RejectMethod
  reflect : ℚ
  expand : ℚ
  contract : ℚ
  shrink : ℚ
  perf_n : ℤ
  dist_tol : Option ℚ
  tol_cnt : ℤ
  fval_tol : Option ℚ
  size_tol : ℚ
  leeway : Option (List ℚ)
deriving DecidableEq, Repr

/-- `allocate_structures` of angel.c: size the simplexes, scratch vertices
and per-objective arrays for the configured space and objective count. -/
def allocate_structures (s : State) : State :=
  let dims := s.space.length
  let zeroV : Vertex := ⟨0, List.replicate dims 0, List.replicate s.perf_n (F.fin 0)⟩
  { s with init_simplex := List.replicate (dims + 1) zeroV,
           simplex := List.replicate (dims + 1) zeroV,
           best := ⟨0, List.replicate dims 0⟩,
           best_perf := List.replicate s.perf_n (F.fin 0),
           reflect := zeroV, expand := zeroV, contract := zeroV,
           leeway := List.replicate (s.perf_n - 1) 0,
           span := List.replicate s.perf_n (F.fin 0, F.fin 0),
           thresh := List.replicate (s.perf_n - 1) (F.fin 0) }

/-- `config_strategy` of angel.c.  Note that when `dist_tol` is unset the
`dist_tol` field of the state is left untouched (the C code only assigns it
inside the not-NaN branch), so a freshly allocated search keeps the calloc
value `+0.0` there. -/
def config_strategy (pr : Prims) (c : Cfg) (s : State) : Option State :=
  let s := { s with loose := c.loose, anchor := c.anchor,
                    samesimplex := c.samesimplex }
  match c.mult with
  | none => none
  | some m =>
    let s := { s with mult := m }
    if c.init_radius ≤ 0 ∨ 1 < c.init_radius then none
    else
    let s := { s with init_radius := c.init_radius }
    let s := { s with reject_type := c.reject_method }
    if c.reflect ≤ 0 then none
    else
    let s := { s with reflect_val := c.reflect }
    if c.expand ≤ s.reflect_val then none
    else
    let s := { s with expand_val := c.expand }
    if c.contract ≤ 0 ∨ 1 ≤ c.contract then none
    else
    let s := { s with contract_val := c.contract }
    if c.shrink ≤ 0 ∨ 1 ≤ c.shrink then none
    else
    let s := { s with shrink_val := c.shrink }
    if c.perf_n < 1 then none
    else
    let s := { s with perf_n := c.perf_n.toNat }
    let s := allocate_structures s
    let ssz := pr.dist (vertex_minimum_terms s.space) (vertex_maximum_terms s.space)
    let s := { s with space_size := ssz }
    let step :=
      match c.dist_tol with
      | some v =>
          if v ≤ 0 ∨ 1 ≤ v then none
          else
            let s := { s with dist_tol := F.fin (v * s.space_size) }
            if c.tol_cnt < 1 then none
            else some { s with tol_cnt := c.tol_cnt }
      | none =>
          match c.fval_tol with
          | none => none
          | some fv =>
            let s := { s with fval_tol := F.fin fv }
            if c.size_tol ≤ 0 ∨ 1 ≤ c.size_tol then none
            else some { s with size_tol := F.fin (c.size_tol * s.space_size) }
    match step with
    | none => none
    | some s =>
      match c.leeway with
      | none => none
      | some lw =>
          if lw.length ≠ s.perf_n - 1 then none
          else
            let s := { s with leeway := lw }
            some { s with span := List.replicate s.perf_n (F.inf, F.ninf) }

/-- `strategy_init` of angel.c: configure, build the initial simplex, clear
the CONVERGED flag, reset the id counter, enter phase 0 and prepare the
first test vertex. -/
def strategy_init (pr : Prims) (c : Cfg) (space : Space) (s : State) :
    Option State :=
  let s := { s with space := space }
  match config_strategy pr c s with
  | none => none
  | some s =>
    match make_initial_simplex pr s with
    | none => none
    | some s =>
      let s := { s with converged_cfg := false }
      let s := { s with next_id := 1 }
      match increment_phase pr s with
      | none => none
      | some s => nm_next_vertex pr s

end Angel

namespace Pro

/-- A vertex of the older vertex library pro.c links against: id (an int,
`-1` marking a fresh vertex), coordinates, and a single scalar
performance. -/
structure PVertex where
  id : ℤ
  term : List ℚ
  perf : F
deriving DecidableEq, Repr

instance : Inhabited PVertex := ⟨⟨-1, [], F.fin 0⟩⟩

/-- An `hpoint_t` as pro.c's interface sees it. -/
structure PPoint where
  id : ℤ
  term : List ℚ
deriving DecidableEq, Repr

instance : Inhabited PPoint := ⟨⟨-1, []⟩⟩

/-- `simplex_state_t` of pro.c. -/
inductive PState where
  | INIT
  | REFLECT
  | EXPAND_ONE
  | EXPAND_ALL
  | SHRINK
  | CONVERGED
deriving DecidableEq, Repr

/-- The process-wide state of pro.c (its file-scope globals). -/
structure ProState where
  space : Space
  simplex_size : ℕ
  state : PState
  base : List PVertex
  test : List PVertex
  best_base : ℕ
  best_test : ℕ
  best_stash : ℕ
  next_id : ℤ
  send_idx : ℕ
  reported : ℕ
  strategy_best : PPoint
  strategy_best_perf : F
  reflect_coefficient : ℚ
  expand_coefficient : ℚ
  contract_coefficient : ℚ
  shrink_coefficient : ℚ
  converge_fv_tol : F
  converge_sz_tol : F
  converged_cfg : Bool
deriving DecidableEq, Repr

instance : Inhabited ProState :=
  ⟨⟨[], 0, .INIT, [], [], 0, 0, 0, 1, 0, 0, default, F.inf,
    1, 2, 1/2, 1/2, F.fin (1/10000), F.fin 0, false⟩⟩

/-- Modelled from the spec: the old library's `simplex_transform` applied
with a pivot row and an input simplex distinct from the output, writing
`out[i].term = vertex_transform(pivot, in[i], c)` with the spec's transform
formula and leaving the output slots' ids and performance alone. -/
def simplex_transform_pro (inp outp : List PVertex) (piv : List ℚ) (c : ℚ)
    (n : ℕ) : List PVertex :=
  (List.range n).map (fun i =>
    { (outp.getD i default) with
      term := vertex_transform_spec piv (inp.getD i default).term c })

/-- Modelled from the spec: `simplex_outofbounds` is true iff every vertex
is out of bounds. -/
def simplex_outofbounds (sp : Space) (sx : List PVertex) : Bool :=
  sx.all (fun v => !(vertex_inbounds_terms sp v.term))

/-- Modelled from the spec: `simplex_collapsed` for pro.c's library, true
iff all vertices project to the same aligned point (coordinate equality on
continuous in-bounds dimensions). -/
def pro_simplex_collapsed (sx : List PVertex) : Bool :=
  match sx with
  | [] => true
  | v :: rest => rest.all (fun u => u.term == v.term)

/-- Modelled from the spec: the centroid (mean coordinates and mean
performance over the vertices whose id ≠ 0) used by pro.c's
`check_convergence`. -/
def pro_simplex_centroid (sx : List PVertex) (dims : ℕ) : List ℚ × F :=
  let act := sx.filter (fun v => v.id != 0)
  let n := act.length
  ((Angel.listSumQ (act.map (·.term)) dims).map (fun q => q / (n : ℚ)),
   F.div (act.foldl (fun a v => F.add a v.perf) (F.fin 0)) (F.fin n))

/-- `pro_next_state` of pro.c.  `input` is the candidate simplex just
measured and `best_in` its best index (the call site passes the globals
`test` and `best_test`). -/
def pro_next_state (st : ProState) (input : List PVertex) (best_in : ℕ) :
    Option ProState :=
  match st.state with
  | .INIT | .SHRINK =>
      some { st with base := input, best_base := best_in, state := .REFLECT }
  | .REFLECT =>
      if F.blt (input.getD best_in default).perf
          (st.base.getD st.best_base default).perf then
        some { st with base := input, best_stash := st.best_test,
                       state := .EXPAND_ONE }
      else
        some { st with state := .SHRINK }
  | .EXPAND_ONE =>
      if F.blt (input.getD 0 default).perf
          (st.base.getD st.best_base default).perf then
        some { st with state := .EXPAND_ALL }
      else
        some { st with best_base := best_in, state := .REFLECT }
  | .EXPAND_ALL =>
      let st :=
        if F.blt (input.getD best_in default).perf
            (st.base.getD st.best_base default).perf then
          { st with base := input, best_base := best_in }
        else st
      some { st with state := .REFLECT }
  | .CONVERGED => none

/-- `pro_next_simplex` of pro.c, producing the new candidate simplex
(written over `test` by the caller). -/
def pro_next_simplex (st : ProState) : Option (List PVertex) :=
  match st.state with
  | .INIT => some st.base
  | .REFLECT =>
      some (simplex_transform_pro st.base st.test
        (st.base.getD st.best_base default).term
        (-st.reflect_coefficient) st.simplex_size)
  | .EXPAND_ONE =>
      let v0 := st.test.getD 0 default
      let t0 := vertex_transform_spec (st.test.getD st.best_test default).term
        (st.base.getD st.best_base default).term st.expand_coefficient
      some ((List.range st.simplex_size).map (fun i =>
        if i = 0 then { v0 with term := t0 }
        else st.base.getD st.best_base default))
  | .EXPAND_ALL =>
      some (simplex_transform_pro st.base st.test
        (st.base.getD st.best_base default).term
        st.expand_coefficient st.simplex_size)
  | .SHRINK =>
      some (simplex_transform_pro st.base st.test
        (st.base.getD st.best_base default).term
        st.shrink_coefficient st.simplex_size)
  | .CONVERGED => some st.test

/-- `check_convergence` of pro.c: collapse test, then the variance/size
test about the centroid of the reference simplex. -/
def pro_check_convergence (dist : List ℚ → List ℚ → ℚ) (st : ProState) :
    ProState :=
  if pro_simplex_collapsed st.base then
    { st with state := .CONVERGED, converged_cfg := true }
  else
    let cent := pro_simplex_centroid st.base st.space.length
    let fv_err := F.div
      ((List.range st.simplex_size).foldl
        (fun acc i =>
          let d := F.sub (st.base.getD i default).perf cent.2
          F.add acc (F.mul d d))
        (F.fin 0))
      (F.fin st.simplex_size)
    let sz_max := (List.range st.simplex_size).foldl
      (fun acc i =>
        let d := F.fin (dist (st.base.getD i default).term cent.1)
        if F.blt acc d then d else acc)
      (F.fin 0)
    if F.blt fv_err st.converge_fv_tol && F.blt sz_max st.converge_sz_tol then
      { st with state := .CONVERGED, converged_cfg := true }
    else st

/-- `pro_algorithm` of pro.c: advance the state machine (checking for
convergence on entry into REFLECT) and regenerate the candidate simplex
until it is not entirely out of bounds.  The C do-while is bounded here by
fuel. -/
def pro_algorithm (dist : List ℚ → List ℚ → ℚ) : ℕ → ProState → Option ProState
  | fuel, st =>
    if st.state = PState.CONVERGED then some st
    else
      match fuel with
      | 0 => none
      | fuel + 1 =>
        match pro_next_state st st.test st.best_test with
        | none => none
        | some st =>
          let st := if st.state = PState.REFLECT then pro_check_convergence dist st
                    else st
          match pro_next_simplex st with
          | none => none
          | some t =>
            let st := { st with test := t }
            if simplex_outofbounds st.space st.test then pro_algorithm dist fuel st
            else some st

/-- The result of `strategy_fetch`: a BUSY status or a candidate point (the
copy of the session-best point into the outgoing message has no effect on
strategy state and is not modelled). -/
inductive FetchOut where
  | busy
  | cand (p : PPoint)
deriving DecidableEq, Repr

/-- `strategy_fetch` of pro.c: BUSY once a whole simplex is outstanding,
otherwise tag the next unsent test vertex with `next_id`, emit it, and
advance `next_id` and `send_idx`. -/
def strategy_fetch (st : ProState) : FetchOut × ProState :=
  if st.send_idx = st.simplex_size then (.busy, st)
  else
    let v := st.test.getD st.send_idx default
    let st := { st with test := listSet st.test st.send_idx { v with id := st.next_id } }
    let out := FetchOut.cand ⟨st.next_id, v.term⟩
    (out, { st with next_id := st.next_id + 1, send_idx := st.send_idx + 1 })

/-- The message status `strategy_report` returns. -/
inductive RStatus where
  | ok
  | fail
deriving DecidableEq, Repr

/-- `strategy_report` of pro.c: find the test vertex carrying the reported
id (rogue reports match none and are ignored with status OK), record the
performance, update the candidate best, run the PRO algorithm once the
whole simplex has reported, and update the session-best point. -/
def strategy_report (dist : List ℚ → List ℚ → ℚ) (fuel : ℕ) (st : ProState)
    (rid : ℤ) (rperf : F) (rterm : List ℚ) : RStatus × ProState :=
  match (List.range st.simplex_size).find?
      (fun i => (st.test.getD i default).id == rid) with
  | none => (.ok, st)
  | some i =>
      let st := { st with reported := st.reported + 1 }
      let st := { st with
        test := listSet st.test i { (st.test.getD i default) with perf := rperf } }
      let st :=
        if F.blt rperf ((st.test.getD st.best_test default).perf) then
          { st with best_test := i }
        else st
      let step :=
        if st.reported = st.simplex_size then
          match pro_algorithm dist fuel st with
          | none => none
          | some st => some { st with reported := 0, send_idx := 0 }
        else some st
      match step with
      | none => (.fail, st)
      | some st =>
          let st :=
            if F.blt rperf st.strategy_best_perf then
              { st with strategy_best_perf := rperf, strategy_best := ⟨rid, rterm⟩ }
            else st
          (.ok, st)

/-- The four coefficient keys as `strategy_cfg` reads them: `none` models an
absent key. -/
structure ProCfg where
  reflect : Option ℚ
  expand : Option ℚ
  contract : Option ℚ
  shrink : Option ℚ
deriving DecidableEq, Repr

/-- The four coefficients with their pro.c defaults. -/
structure ProCoeffs where
  reflect_coefficient : ℚ
  expand_coefficient : ℚ
  contract_coefficient : ℚ
  shrink_coefficient : ℚ
deriving DecidableEq, Repr

/-- The coefficient-validation section of PRO's `strategy_cfg` (pro.c lines
236-294), exactly as written: the `PRO_EXPAND`, `PRO_CONTRACT` and
`PRO_SHRINK` validators test `reflect_coefficient` instead of the value
just parsed. -/
def strategy_cfg_coeffs (c : ProCfg) : Option ProCoeffs :=
  let k : ProCoeffs := ⟨1, 2, 1/2, 1/2⟩
  let step1 :=
    match c.reflect with
    | none => some k
    | some v => if v ≤ 0 then none else some { k with reflect_coefficient := v }
  match step1 with
  | none => none
  | some k =>
    let step2 :=
      match c.expand with
      | none => some k
      | some v =>
          if k.reflect_coefficient ≤ 1 then none
          else some { k with expand_coefficient := v }
    match step2 with
    | none => none
    | some k =>
      let step3 :=
        match c.contract with
        | none => some k
        | some v =>
            if k.reflect_coefficient ≤ 0 ∨ 1 ≤ k.reflect_coefficient then none
            else some { k with contract_coefficient := v }
      match step3 with
      | none => none
      | some k =>
        match c.shrink with
        | none => some k
        | some v =>
            if k.reflect_coefficient ≤ 0 ∨ 1 ≤ k.reflect_coefficient then none
            else some { k with shrink_coefficient := v }

/-- Modelled from the spec: the validation the specification prescribes for
the same section, each coefficient tested against its own range (reflect
positive; expand greater than 1; contract and shrink inside (0,1)). -/
def strategy_cfg_coeffs_spec (c : ProCfg) : Option ProCoeffs :=
  let k : ProCoeffs := ⟨1, 2, 1/2, 1/2⟩
  let step1 :=
    match c.reflect with
    | none => some k
    | some v => if v ≤ 0 then none else some { k with reflect_coefficient := v }
  match step1 with
  | none => none
  | some k =>
    let step2 :=
      match c.expand with
      | none => some k
      | some v =>
          if v ≤ 1 then none
          else some { k with expand_coefficient := v }
    match step2 with
    | none => none
    | some k =>
      let step3 :=
        match c.contract with
        | none => some k
        | some v =>
            if v ≤ 0 ∨ 1 ≤ v then none
            else some { k with contract_coefficient := v }
      match step3 with
      | none => none
      | some k =>
        match c.shrink with
        | none => some k
        | some v =>
            if v ≤ 0 ∨ 1 ≤ v then none
            else some { k with shrink_coefficient := v }

end Pro

namespace Angel

/-- A host-pipeline operation against one ANGEL search instance.  The
`analyze` and `rejected` payloads are the oracle inputs the host supplies
(the measured trial, the rejection hint, the random replacement vertex). -/
inductive Op where
  | gen : Op
  | analyze (t : Trial) : Op
  | rejectedOp (hint : Option (List ℚ)) (rnd : List ℚ) : Op
deriving DecidableEq, Repr

/-- Run one operation; a C-level failure (a -1 return) leaves the recorded
state unchanged.  The second component lists the ids emitted by `generate`,
each tagged with whether the state machine was already CONVERGED when the
emission was made. -/
def runOp (pr : Prims) (fuel : ℕ) (s : State) : Op → State × List (Bool × ℕ)
  | .gen =>
      match strategy_generate s with
      | (.wait, s') => (s', [])
      | (.accept p, s') => (s', [(decide (s.state = SimplexState.CONVERGED), p.id)])
  | .analyze t =>
      match strategy_analyze pr fuel s t with
      | none => (s, [])
      | some s' => (s', [])
  | .rejectedOp hint rnd =>
      match strategy_rejected pr fuel s hint rnd with
      | none => (s, [])
      | some r => (r.2, [])

/-- Run a list of operations, collecting the tagged emissions in order. -/
def runOps (pr : Prims) (fuel : ℕ) : State → List Op → State × List (Bool × ℕ)
  | s, [] => (s, [])
  | s, o :: ops =>
      let r := runOp pr fuel s o
      let rest := runOps pr fuel r.1 ops
      (rest.1, r.2 ++ rest.2)

/-- When `data->next` points into the simplex, the index is in range, so
that writes through the pointer land (as they always do in C, where the
pointer addresses an allocated slot). -/
def nextOK (s : State) : Prop :=
  ∀ i, s.next = NextPtr.simplexAt i → i < s.simplex.length

/-- The simplex-construction oracle returns a simplex of the correct
cardinality `space.len + 1`. -/
def prOK (pr : Prims) : Prop :=
  ∀ sp ip r rows, pr.simplex_set sp ip r = some rows → rows.length = sp.length + 1

/-- Structural wellformedness of a search state: both simplexes have
cardinality `space.len + 1`, the best index and the INIT/SHRINK walk index
are in range, and the `next` pointer addresses an allocated slot. -/
def WF (s : State) : Prop :=
  s.simplex.length = s.space.length + 1 ∧
  s.init_simplex.length = s.space.length + 1 ∧
  s.index_best < s.simplex.length ∧
  s.index_curr ≤ (s.space.length : ℤ) ∧
  nextOK s

/-- The id invariant the interface maintains along a trace: a wellformed
state with strictly positive `next_id`, and — unless the search has
converged or the current candidate is still outstanding — the bound `m` on
the largest id emitted so far is strictly below `next_id`. -/
def emitInv (s : State) (m : ℕ) : Prop :=
  WF s ∧ 1 ≤ s.next_id ∧ m ≤ s.next_id ∧
    (m = s.next_id → (getNext s).id = s.next_id ∨ s.state = SimplexState.CONVERGED)

end Angel

namespace Pro

/-- A host operation against the PRO strategy: a fetch, or a report carrying
a candidate id, its measured performance and its coordinates. -/
inductive POp where
  | fetch : POp
  | report (rid : ℤ) (rperf : F) (rterm : List ℚ) : POp
deriving DecidableEq, Repr

/-- Run one PRO operation, collecting the id emitted by a successful
fetch. -/
def runPOp (dist : List ℚ → List ℚ → ℚ) (fuel : ℕ) (st : ProState) :
    POp → ProState × List ℤ
  | .fetch =>
      match strategy_fetch st with
      | (.busy, st') => (st', [])
      | (.cand p, st') => (st', [p.id])
  | .report rid rperf rterm => ((strategy_report dist fuel st rid rperf rterm).2, [])

/-- Run a list of PRO operations, collecting the emitted ids in order. -/
def runPOps (dist : List ℚ → List ℚ → ℚ) (fuel : ℕ) :
    ProState → List POp → ProState × List ℤ
  | st, [] => (st, [])
  | st, o :: ops =>
      let r := runPOp dist fuel st o
      let rest := runPOps dist fuel r.1 ops
      (rest.1, r.2 ++ rest.2)

end Pro

namespace Angel

/-- The rational mirror of `penalty_fold`'s accumulated penalty over an
index list, with starting base `b`: the value the C loop computes when every
quantity involved is finite. -/
def penaltySumQ (logq : ℚ → ℚ) (o t m : ℕ → ℚ) (loose : Bool) :
    List ℕ → ℚ → ℚ
  | [], _ => 0
  | i :: rest, b =>
      (if t i < o i then
        (if loose then 0 else b) + 1 / (1 - logq ((o i - t i) / (m i - t i)))
       else 0) + penaltySumQ logq o t m loose rest (2 * b)

/-- The penalty-adjusted objective value `strategy_analyze` stores for a
trial before updating the best point: objective `phase` of the vertex the
measurement block wrote through `data->next`. -/
def adjusted_obj (pr : Prims) (s : State) (trial : Trial) : F :=
  objAt (getNext (measured_state pr s trial)).perf s.phase.toNat

/-- Primitives for the concrete one-dimensional runs: the spec's transform
formula, the exact one-dimensional L2 norm, the trivial logarithm model,
and a simplex oracle placing the two initial vertices at 10 and 20. -/
def prRun : Prims :=
  ⟨vertex_transform_spec, dist1, fun _ => 0, fun _ _ _ => some [[10], [20]], none⟩

/-- The same primitives with the reversed transform. -/
def prRunRev : Prims :=
  ⟨vertex_transform_rev, dist1, fun _ => 0, fun _ _ _ => some [[10], [20]], none⟩

/-- Primitives whose simplex oracle places the two initial vertices at 50
and 50.005. -/
def prConv : Prims :=
  ⟨vertex_transform_spec, dist1, fun _ => 0,
   fun _ _ _ => some [[50], [50 + 1/200]], none⟩

/-- A single-objective configuration with every key at its angel.c default
and `DIST_TOL` unset. -/
def cfgDefault : Cfg :=
  { loose := false, anchor := true, samesimplex := true, mult := some 1,
    init_radius := 1/2, reject_method := .penalty, reflect := 1, expand := 2,
    contract := 1/2, shrink := 1/2, perf_n := 1, dist_tol := none, tol_cnt := 3,
    fval_tol := some (1/10000), size_tol := 1/200, leeway := some [] }

/-- The one-dimensional space `x ∈ [0, 100]`. -/
def spc1 : Space := [(0, 100)]

/-- The freshly initialised state of the flat-measurement run. -/
def sRun0 : State :=
  (strategy_init prRun cfgDefault spc1 strategy_alloc).getD strategy_alloc

/-- The operation script of the flat-measurement run: ten generate/analyze
rounds with every measurement equal to 5, then one more generate after the
flatness counter has converged the search. -/
def opsRun : List Op :=
  [Op.gen, Op.analyze ⟨1, [10], [F.fin 5]⟩,
   Op.gen, Op.analyze ⟨2, [20], [F.fin 5]⟩,
   Op.gen, Op.analyze ⟨3, [10], [F.fin 5]⟩,
   Op.gen, Op.analyze ⟨4, [5], [F.fin 5]⟩,
   Op.gen, Op.analyze ⟨5, [10], [F.fin 5]⟩,
   Op.gen, Op.analyze ⟨6, [5], [F.fin 5]⟩,
   Op.gen, Op.analyze ⟨7, [10], [F.fin 5]⟩,
   Op.gen, Op.analyze ⟨8, [25/2], [F.fin 5]⟩,
   Op.gen, Op.analyze ⟨9, [10], [F.fin 5]⟩,
   Op.gen, Op.analyze ⟨10, [25/2], [F.fin 5]⟩,
   Op.gen]

/-- The final state and tagged emissions of the flat-measurement run. -/
def runResult : State × List (Bool × ℕ) := runOps prRun 8 sRun0 opsRun

/-- The state reached after the first generate of the flat-measurement
run. -/
def sAfterGen1 : State := (runOp prRun 8 sRun0 Op.gen).1

/-- The state `strategy_analyze` produces from `sAfterGen1` on the first
measurement. -/
def sAnalyzed1 : State :=
  (strategy_analyze prRun 8 sAfterGen1 ⟨1, [10], [F.fin 5]⟩).getD strategy_alloc

/-- The state of the convergence-tolerance run after its two measurements
(5 and 5.001 on the vertices at 50 and 50.005): the strategy has entered
REFLECT with a simplex whose function-value variance and radius are far
inside the default tolerances. -/
def sConvRun : State :=
  (runOps prConv 8
    ((strategy_init prConv cfgDefault spc1 strategy_alloc).getD strategy_alloc)
    [Op.gen, Op.analyze ⟨1, [50], [F.fin 5]⟩,
     Op.gen, Op.analyze ⟨2, [50 + 1/200], [F.fin (5 + 1/1000)]⟩]).1

/-- A concrete REFLECT state: centroid at 0, worst vertex at 1, reflect
coefficient 1. -/
def sReflect : State :=
  { strategy_alloc with
    state := SimplexState.REFLECT,
    space := [(-100, 100)], space_size := 200, reflect_val := 1, perf_n := 1,
    centroid := ⟨0, [0], [F.fin 0]⟩,
    simplex := [⟨1, [1], [F.fin 1]⟩, ⟨2, [-1], [F.fin 0]⟩],
    index_worst := 0, index_best := 1 }

/-- A concrete CONVERGED state whose `next` pointer addresses the reflect
scratch vertex. -/
def sConv9 : State :=
  { sReflect with
    state := SimplexState.CONVERGED
    next := NextPtr.reflectV
    next_id := 5 }

/-- Primitives whose simplex oracle always returns a simplex of the correct
cardinality `space.len + 1`. -/
def prAny : Prims :=
  ⟨vertex_transform_spec, dist1, fun _ => 0,
   fun sp ip _ => some (List.replicate (sp.length + 1) ip), none⟩

/-- A wellformed non-converged state with `next_id` 5, whose emission bound
3 is strictly below `next_id`. -/
def sInv : State :=
  { sReflect with
    init_simplex := [⟨1, [1], [F.fin 1]⟩, ⟨2, [-1], [F.fin 0]⟩]
    next := NextPtr.reflectV
    next_id := 5 }

end Angel

namespace Pro

/-- A concrete EXPAND_ONE state whose stashed best index (0) differs from
the measured trial simplex's best index (1). -/
def stExp : ProState :=
  { (default : ProState) with
    space := [(0, 100)], simplex_size := 2,
    state := PState.EXPAND_ONE,
    base := [⟨1, [0], F.fin 1⟩, ⟨2, [1], F.fin 0⟩],
    test := [⟨3, [2], F.fin 5⟩, ⟨4, [3], F.fin (-1)⟩],
    best_base := 1, best_test := 1, best_stash := 0 }

end Pro

section Theorems

attribute [local semireducible] Rat.add Rat.mul Rat.inv Rat.sub

open Angel Pro

/-- C1 (counterexample): with `vertex_transform` as the spec defines it
(`out = origin + c · (v − origin)`), the candidate `nm_next_vertex` emits in
the REFLECT state at centroid 0, worst vertex 1 and ρ = 1 is `[1]`, not the
claimed `centroid + ρ · (centroid − worst) = [-1]`. -/
theorem claim_C1_counterexample :
    (nm_next_vertex prRun sReflect).map (fun s => s.reflect.term) = some [1]
    ∧ some (List.zipWith (fun c w => c + sReflect.reflect_val * (c - w))
        sReflect.centroid.term
        (sReflect.simplex.getD sReflect.index_worst default).term)
      = some [-1]
    ∧ ([1] : List ℚ) ≠ [-1] := by
  refine ⟨rfl, by decide, by decide⟩

/-- C1 (amended): in ANGEL's REFLECT state the candidate vertex emitted is
`vertex_transform(centroid, worst, ρ)`, and for that candidate to equal
`centroid + ρ · (centroid − worst)` — as §4.3 of the spec and standard
Nelder-Mead prescribe — the transform must compute
`out = origin + c · (origin − v)`, the spec's §4.1 formula with the
displacement reversed.  Under that transform, the REFLECT candidate is
exactly `centroid + ρ · (centroid − worst)` and `data->next` points at the
reflect scratch vertex. -/
theorem claim_C1_amended (pr : Prims) (s s' : State)
    (hvt : pr.vt = vertex_transform_rev) (hst : s.state = SimplexState.REFLECT)
    (h : nm_next_vertex pr s = some s') :
    s'.reflect.term
      = List.zipWith (fun c w => c + s.reflect_val * (c - w)) s.centroid.term
          (s.simplex.getD s.index_worst default).term
    ∧ s'.next = NextPtr.reflectV ∧ getNext s' = s'.reflect := by
  unfold nm_next_vertex at h
  rw [hst, hvt] at h
  simp only [Option.some.injEq] at h
  subst h
  exact ⟨rfl, rfl, rfl⟩

/-- C1 (witness): the amended statement evaluated at the concrete REFLECT
state with the reversed transform: the emitted candidate equals
`centroid + 1 · (centroid − worst) = [-1]`. -/
theorem claim_C1_witness :
    ((nm_next_vertex prRunRev sReflect).getD strategy_alloc).reflect.term
      = List.zipWith (fun c w => c + sReflect.reflect_val * (c - w))
          sReflect.centroid.term
          (sReflect.simplex.getD sReflect.index_worst default).term := by
  exact (claim_C1_amended prRunRev sReflect
    ((nm_next_vertex prRunRev sReflect).getD strategy_alloc) rfl rfl (by decide)).1

/-- C3: PRO's `strategy_cfg` validators for `PRO_EXPAND`, `PRO_CONTRACT`
and `PRO_SHRINK` test `reflect_coefficient` instead of the value provided,
so with the default reflect coefficient 1.0 a perfectly valid
`PRO_EXPAND = 3.0` is rejected, while with `PRO_REFLECT = 2.0` the invalid
`PRO_EXPAND = 0.5` is accepted; the spec-prescribed validation does the
opposite in both cases. -/
theorem claim_C3 :
    strategy_cfg_coeffs ⟨none, some 3, none, none⟩ = none
    ∧ (1 : ℚ) < 3
    ∧ strategy_cfg_coeffs_spec ⟨none, some 3, none, none⟩ = some ⟨1, 3, 1/2, 1/2⟩
    ∧ strategy_cfg_coeffs ⟨some 2, some (1/2), none, none⟩
        = some ⟨2, 1/2, 1/2, 1/2⟩
    ∧ ¬ ((1 : ℚ) < 1/2)
    ∧ strategy_cfg_coeffs_spec ⟨some 2, some (1/2), none, none⟩ = none := by
  refine ⟨by decide, by decide, by decide, by decide, by decide, by decide⟩

/-- C4 (counterexample): in the EXPAND_ONE state with a non-improving
expanded vertex, `pro_next_state` sets `best_base` to the trial's best
index (here 1), not to the stashed index `best_stash` (here 0), which it
never reads. -/
theorem claim_C4_counterexample :
    (pro_next_state stExp stExp.test 1).map (fun r => r.best_base) = some 1
    ∧ stExp.best_stash = 0
    ∧ (1 : ℕ) ≠ 0
    ∧ (pro_next_state stExp stExp.test 1).map (fun r => r.state)
        = some PState.REFLECT := by
  refine ⟨by decide, rfl, by decide, by decide⟩

/-- C4 (amended): in PRO's EXPAND_ONE state, if vertex 0 of the measured
trial simplex improved over `B[best_B]` the machine moves to EXPAND_ALL
with the reference simplex and its best index unchanged; otherwise it goes
back to REFLECT keeping the reference simplex (which still holds the
reflected simplex accepted earlier) and sets `best_B` to the best index of
the just-measured trial simplex — the index stashed when REFLECT was
accepted is never consulted. -/
theorem claim_C4_amended (st : ProState) (input : List PVertex) (best_in : ℕ)
    (st' : ProState) (hst : st.state = PState.EXPAND_ONE)
    (h : pro_next_state st input best_in = some st') :
    (F.blt (input.getD 0 default).perf (st.base.getD st.best_base default).perf
        = true → st' = { st with state := PState.EXPAND_ALL })
    ∧ (F.blt (input.getD 0 default).perf (st.base.getD st.best_base default).perf
        = false → st' = { st with best_base := best_in, state := PState.REFLECT }) := by
  unfold pro_next_state at h
  rw [hst] at h
  constructor
  · intro hb
    rw [hb] at h
    simp only [if_true, Option.some.injEq] at h
    exact h.symm
  · intro hb
    rw [hb] at h
    simp only [Bool.false_eq_true, if_false, Option.some.injEq] at h
    exact h.symm

/-- C4 (witness): the amended statement at the concrete EXPAND_ONE state:
the expanded vertex did not improve, so the machine returns to REFLECT with
`best_base` set to the trial's best index. -/
theorem claim_C4_witness :
    (pro_next_state stExp stExp.test 1).getD default
      = { stExp with best_base := 1, state := PState.REFLECT } := by
  exact (claim_C4_amended stExp stExp.test 1
    ((pro_next_state stExp stExp.test 1).getD default) rfl (by decide)).2 (by decide)

/-- C5: a report whose id matches no test-simplex slot leaves PRO's
`strategy_report` returning status OK with the state unchanged, and ANGEL's
`strategy_analyze` returns an error for any trial whose id differs from the
outstanding candidate's id. -/
theorem claim_C5 :
    (∀ (dist : List ℚ → List ℚ → ℚ) (fuel : ℕ) (st : ProState) (rid : ℤ)
        (rperf : F) (rterm : List ℚ),
       (∀ i < st.simplex_size, ((st.test.getD i default).id : ℤ) ≠ rid) →
       strategy_report dist fuel st rid rperf rterm = (RStatus.ok, st))
    ∧ (∀ (pr : Prims) (fuel : ℕ) (s : Angel.State) (t : Angel.Trial),
       t.id ≠ (Angel.getNext s).id →
       Angel.strategy_analyze pr fuel s t = none) := by
  constructor
  · intro dist fuel st rid rperf rterm hno
    unfold strategy_report
    have hfind : (List.range st.simplex_size).find?
        (fun i => (st.test.getD i default).id == rid) = none := by
      apply List.find?_eq_none.mpr
      intro i hi
      simp only [List.mem_range] at hi
      simpa using hno i hi
    rw [hfind]
  · intro pr fuel s t ht
    unfold Angel.strategy_analyze
    simp [ht]

/-- C5 (witness): a rogue report (id 99 against test ids 3 and 4) is
ignored with status OK, and a rogue trial (id 99 against outstanding id 1)
makes ANGEL's analyze fail. -/
theorem claim_C5_witness :
    strategy_report (fun _ _ => 0) 4 stExp 99 (F.fin 7) [0] = (RStatus.ok, stExp)
    ∧ Angel.strategy_analyze prRun 4 sReflect ⟨99, [0], [F.fin 1]⟩ = none := by
  exact ⟨claim_C5.1 (fun _ _ => 0) 4 stExp 99 (F.fin 7) [0] (by decide),
         claim_C5.2 prRun 4 sReflect ⟨99, [0], [F.fin 1]⟩ (by decide)⟩

/-- C6: with `DIST_TOL` unconfigured the convergence test never reaches the
size/fval criterion.  The configuration leaves `dist_tol` at the calloc
value `+0.0` — not NaN — so `check_convergence` takes the distance branch
(whose `move_len < 0.0` test never fires) and the run below stays in
REFLECT, unconverged, even though `fval_err < fval_tol` and
`size_max < size_tol` both hold. -/
theorem claim_C6 :
    cfgDefault.dist_tol = none
    ∧ sConvRun.dist_tol = F.fin 0
    ∧ F.isnan sConvRun.dist_tol = false
    ∧ sConvRun.state = SimplexState.REFLECT
    ∧ F.blt (cc_fval_err sConvRun) sConvRun.fval_tol = true
    ∧ F.blt (cc_size_max dist1 sConvRun) sConvRun.size_tol = true
    ∧ (check_convergence prConv sConvRun).map
        (fun s => (s.state, s.converged_cfg, s.phase))
      = some (SimplexState.REFLECT, false, 0) := by
  refine ⟨rfl, by decide, by decide, by decide, by decide, by decide, by decide⟩

/-- C10: ANGEL's span update is asymmetric: the minimum is pulled down to
any finite measured value (`min` of old and new), the maximum is raised to
`max` of old and new only for finite values, and a `+∞` measurement leaves
the span entirely unchanged. -/
theorem claim_C10 :
    (∀ (qm : ℚ) (mx : F) (q : ℚ),
       (Angel.span_update (F.fin qm, mx) (F.fin q)).1 = F.fin (min qm q))
    ∧ (∀ (mn : F) (qx q : ℚ),
       (Angel.span_update (mn, F.fin qx) (F.fin q)).2 = F.fin (max qx q))
    ∧ (∀ sp : F × F, Angel.span_update sp F.inf = sp) := by
  refine ⟨?_, ?_, ?_⟩
  · intro qm mx q
    simp only [Angel.span_update, F.blt]
    rcases lt_or_ge q qm with h | h
    · simp [h, min_eq_right h.le]
    · simp [not_lt.mpr h, min_eq_left h]
  · intro mn qx q
    simp only [Angel.span_update, F.blt]
    rcases lt_or_ge qx q with h | h
    · simp [h, max_eq_right h.le]
    · simp [not_lt.mpr h, max_eq_left h]
  · intro sp
    rcases sp with ⟨a, b⟩
    cases a <;> cases b <;> rfl

theorem F.add_fin (a b : ℚ) : F.add (F.fin a) (F.fin b) = F.fin (a + b) := rfl

theorem F.sub_fin (a b : ℚ) : F.sub (F.fin a) (F.fin b) = F.fin (a - b) := by
  show F.fin (a + -b) = F.fin (a - b)
  rw [← sub_eq_add_neg]

theorem F.mul_fin (a b : ℚ) : F.mul (F.fin a) (F.fin b) = F.fin (a * b) := rfl

theorem F.div_fin (a b : ℚ) (hb : b ≠ 0) :
    F.div (F.fin a) (F.fin b) = F.fin (a / b) := by
  simp [F.div, hb]

theorem F.blt_fin (a b : ℚ) : F.blt (F.fin a) (F.fin b) = decide (a < b) := rfl

theorem Flog_fin_pos (logq : ℚ → ℚ) (q : ℚ) (h : 0 < q) :
    Flog logq (F.fin q) = F.fin (logq q) := by
  simp [Flog, h]

theorem Angel.soft_denom_pos (logq : ℚ → ℚ)
    (hlog : ∀ q : ℚ, 0 < q → q ≤ 1 → logq q ≤ 0)
    (oi ti mi : ℚ) (h1 : ti < oi) (h2 : oi ≤ mi) :
    0 < (oi - ti) / (mi - ti) ∧ (oi - ti) / (mi - ti) ≤ 1 ∧
      0 < 1 - logq ((oi - ti) / (mi - ti)) := by
  have hd : 0 < mi - ti := by linarith
  have hf1 : 0 < (oi - ti) / (mi - ti) := div_pos (by linarith) hd
  have hf2 : (oi - ti) / (mi - ti) ≤ 1 := by
    rw [div_le_one hd]; linarith
  exact ⟨hf1, hf2, by have := hlog _ hf1 hf2; linarith⟩

theorem Angel.penalty_fold_cons (logq : ℚ → ℚ) (obj thresh spanmax : ℕ → F)
    (loose : Bool) (i : ℕ) (rest : List ℕ) (pb : F × F) :
    penalty_fold logq obj thresh spanmax loose (i :: rest) pb
      = penalty_fold logq obj thresh spanmax loose rest
          (if F.blt (thresh i) (obj i) then
            F.add (if !loose then F.add pb.1 pb.2 else pb.1)
              (F.div (F.fin 1) (F.sub (F.fin 1)
                (Flog logq (F.div (F.sub (obj i) (thresh i))
                  (F.sub (spanmax i) (thresh i))))))
           else pb.1,
           F.mul pb.2 (F.fin 2)) := rfl

theorem Angel.penaltySumQ_cons (logq : ℚ → ℚ) (o t m : ℕ → ℚ) (loose : Bool)
    (i : ℕ) (rest : List ℕ) (b : ℚ) :
    penaltySumQ logq o t m loose (i :: rest) b
      = (if t i < o i then
          (if loose then 0 else b) + 1 / (1 - logq ((o i - t i) / (m i - t i)))
         else 0) + penaltySumQ logq o t m loose rest (2 * b) := rfl

theorem Angel.penalty_fold_fin (logq : ℚ → ℚ) (obj thresh spanmax : ℕ → F)
    (o t m : ℕ → ℚ) (loose : Bool) (l : List ℕ)
    (ho : ∀ i ∈ l, obj i = F.fin (o i)) (ht : ∀ i ∈ l, thresh i = F.fin (t i))
    (hm : ∀ i ∈ l, spanmax i = F.fin (m i))
    (hbd : ∀ i ∈ l, t i < o i → o i ≤ m i)
    (hlog : ∀ q : ℚ, 0 < q → q ≤ 1 → logq q ≤ 0) :
    ∀ p b : ℚ,
      penalty_fold logq obj thresh spanmax loose l (F.fin p, F.fin b)
        = (F.fin (p + penaltySumQ logq o t m loose l b),
           F.fin (b * 2 ^ l.length)) := by
  induction l with
  | nil => intro p b; simp [penalty_fold, penaltySumQ]
  | cons i rest ih =>
    intro p b
    have hoi := ho i (List.mem_cons_self i rest)
    have hti := ht i (List.mem_cons_self i rest)
    have hmi := hm i (List.mem_cons_self i rest)
    have ih' := ih (fun j hj => ho j (List.mem_cons_of_mem i hj))
      (fun j hj => ht j (List.mem_cons_of_mem i hj))
      (fun j hj => hm j (List.mem_cons_of_mem i hj))
      (fun j hj => hbd j (List.mem_cons_of_mem i hj))
    rw [Angel.penalty_fold_cons, Angel.penaltySumQ_cons, hoi, hti, hmi]
    have hmul : F.mul (F.fin p, F.fin b).2 (F.fin 2) = F.fin (2 * b) := by
      show F.mul (F.fin b) (F.fin 2) = F.fin (2 * b)
      rw [F.mul_fin, mul_comm]
    rw [hmul]
    by_cases hv : t i < o i
    · have hb := hbd i (List.mem_cons_self i rest) hv
      obtain ⟨hf1, hf2, hden⟩ :=
        Angel.soft_denom_pos logq hlog (o i) (t i) (m i) hv hb
      have hd : m i - t i ≠ 0 := by
        have h2 : t i < m i := lt_of_lt_of_le hv hb
        intro hc
        rw [sub_eq_zero] at hc
        exact absurd hc.symm (ne_of_lt h2)
      have e1 : F.blt (F.fin (t i)) (F.fin (o i)) = true := by
        rw [F.blt_fin]; exact decide_eq_true hv
      rw [if_pos e1, if_pos hv]
      rw [F.sub_fin, F.sub_fin, F.div_fin _ _ hd, Flog_fin_pos _ _ hf1,
        F.sub_fin, F.div_fin _ _ (ne_of_gt hden)]
      cases loose with
      | false =>
          rw [if_pos (show (!false) = true by decide)]
          have hadd : F.add (F.fin p, F.fin b).1 (F.fin p, F.fin b).2
              = F.fin (p + b) := F.add_fin p b
          rw [hadd, F.add_fin, ih']
          simp only [Prod.mk.injEq, List.length_cons,
            if_neg (show ¬ (false = true) by decide)]
          constructor
          · congr 1; ring
          · rw [pow_succ]; congr 1; ring
      | true =>
          rw [if_neg (show ¬ ((!true) = true) by decide)]
          have hfst : (F.fin p, F.fin b).1 = F.fin p := rfl
          rw [hfst, F.add_fin, ih']
          simp only [Prod.mk.injEq, List.length_cons,
            if_pos (show (true = true) by decide), if_true]
          constructor
          · congr 1; ring
          · rw [pow_succ]; congr 1; ring
    · have e1 : F.blt (F.fin (t i)) (F.fin (o i)) = false := by
        rw [F.blt_fin]; exact decide_eq_false hv
      rw [if_neg (by simp [e1]), if_neg hv]
      have hfst : (F.fin p, F.fin b).1 = F.fin p := rfl
      rw [hfst, ih']
      simp only [Prod.mk.injEq, List.length_cons]
      constructor
      · congr 1; ring
      · rw [pow_succ]; congr 1; ring

theorem Angel.mem_downFrom (ph i : ℕ) : i ∈ downFrom ph ↔ i < ph := by
  simp [downFrom, List.mem_reverse, List.mem_range]

theorem Angel.penaltySumQ_downFrom (logq : ℚ → ℚ) (o t m : ℕ → ℚ)
    (loose : Bool) :
    ∀ ph b,
      penaltySumQ logq o t m loose (downFrom ph) b
        = ∑ k ∈ Finset.range ph,
            (if t k < o k then
              1 / (1 - logq ((o k - t k) / (m k - t k)))
                + (if loose then 0 else b * 2 ^ (ph - 1 - k))
             else 0) := by
  intro ph
  induction ph with
  | zero => intro b; simp [downFrom, penaltySumQ]
  | succ n ih =>
    intro b
    have hdf : downFrom (n + 1) = n :: downFrom n := by
      simp [downFrom, List.range_succ]
    rw [hdf, penaltySumQ, ih (2 * b), Finset.sum_range_succ]
    have hterm : ∀ k ∈ Finset.range n,
        (if t k < o k then
          1 / (1 - logq ((o k - t k) / (m k - t k)))
            + (if loose then 0 else 2 * b * 2 ^ (n - 1 - k))
         else 0)
        = (if t k < o k then
            1 / (1 - logq ((o k - t k) / (m k - t k)))
              + (if loose then 0 else b * 2 ^ (n + 1 - 1 - k))
           else 0) := by
      intro k hk
      simp only [Finset.mem_range] at hk
      have he : n + 1 - 1 - k = (n - 1 - k) + 1 := by omega
      rw [he, pow_succ]
      ring_nf
    rw [Finset.sum_congr rfl hterm]
    have hn : n + 1 - 1 - n = 0 := by omega
    rw [hn, pow_zero]
    by_cases hv : t n < o n
    · simp only [if_pos hv]
      cases loose with
      | false =>
          simp only [if_neg (show ¬ (false = true) by decide), mul_one]
          ring
      | true =>
          simp only [if_pos (show (true = true) by decide), if_true]
          ring
    · simp only [if_neg hv]
      ring

theorem Angel.penaltySumQ_nonneg (logq : ℚ → ℚ) (o t m : ℕ → ℚ)
    (loose : Bool) (l : List ℕ)
    (hbd : ∀ i ∈ l, t i < o i → o i ≤ m i)
    (hlog : ∀ q : ℚ, 0 < q → q ≤ 1 → logq q ≤ 0) :
    ∀ b : ℚ, 0 ≤ b →
      (0 ≤ penaltySumQ logq o t m loose l b ∧
        ((∃ i ∈ l, t i < o i) → 0 < penaltySumQ logq o t m loose l b)) := by
  induction l with
  | nil => intro b _; simp [penaltySumQ]
  | cons i rest ih =>
    intro b hb
    have ih' := ih (fun j hj => hbd j (List.mem_cons_of_mem i hj)) (2 * b)
      (by linarith)
    have hc : 0 ≤ (if t i < o i then
        (if loose then 0 else b)
          + 1 / (1 - logq ((o i - t i) / (m i - t i))) else 0) ∧
        (t i < o i → 0 < (if t i < o i then
          (if loose then 0 else b)
            + 1 / (1 - logq ((o i - t i) / (m i - t i))) else 0)) := by
      by_cases hv : t i < o i
      · obtain ⟨_, _, hden⟩ := Angel.soft_denom_pos logq hlog (o i) (t i) (m i)
          hv (hbd i (List.mem_cons_self i rest) hv)
        have hsoft : 0 < 1 / (1 - logq ((o i - t i) / (m i - t i))) :=
          one_div_pos.mpr hden
        have hbase : 0 ≤ (if loose then 0 else b) := by
          cases loose <;> simp [hb]
        simp only [hv, if_true]
        exact ⟨by linarith, fun _ => by linarith⟩
      · simp [hv]
    rw [penaltySumQ]
    constructor
    · linarith [hc.1, ih'.1]
    · rintro ⟨j, hj, hjv⟩
      rcases List.mem_cons.mp hj with rfl | hj'
      · have := hc.2 hjv
        linarith [ih'.1]
      · have := ih'.2 ⟨j, hj', hjv⟩
        linarith [hc.1]

theorem objAt_listSet_self (p : List F) (i : ℕ) (x : F) (h : i < p.length) :
    objAt (listSet p i x) i = x := by
  simp [objAt, listSet, List.getD, List.getElem?_set_self h]

/-- C2: when a measured point violates at least one higher-priority
threshold, the penalty block of `strategy_analyze` adds to objective `p`
exactly `penalty * (span[p].max - span[p].min) * mult`, where the penalty
sums, for every violated `k < p`, the soft component
`1 / (1 - log((obj[k] - thresh[k]) / (span[k].max - thresh[k])))` plus, in
strict mode, a base of 1.0 scaled by `2^(p-1-k)`, while in loose mode no
per-violation base is added but a single extra 1.0 is added once. -/
theorem claim_C2 (logq : ℚ → ℚ) (ph : ℕ) (loose : Bool) (mult : ℚ)
    (span : List (F × F)) (thresh perf : List F) (o t m : ℕ → ℚ)
    (op smn smx : ℚ)
    (ho : ∀ i < ph, objAt perf i = F.fin (o i))
    (ht : ∀ i < ph, objAt thresh i = F.fin (t i))
    (hm : ∀ i < ph, (span.getD i (F.inf, F.ninf)).2 = F.fin (m i))
    (hbd : ∀ i < ph, t i < o i → o i ≤ m i)
    (hlog : ∀ q : ℚ, 0 < q → q ≤ 1 → logq q ≤ 0)
    (hviol : ∃ k < ph, t k < o k)
    (hop : objAt perf ph = F.fin op)
    (hsp : span.getD ph (F.inf, F.ninf) = (F.fin smn, F.fin smx))
    (hlen : ph < perf.length) :
    objAt (apply_penalty logq ph loose mult span thresh perf) ph
      = F.fin (op
          + ((∑ k ∈ Finset.range ph,
               (if t k < o k then
                 1 / (1 - logq ((o k - t k) / (m k - t k)))
                   + (if loose then 0 else 2 ^ (ph - 1 - k))
                else 0))
             + (if loose then 1 else 0)) * (smx - smn) * mult) := by
  have hfold := Angel.penalty_fold_fin logq (objAt perf) (objAt thresh)
    (fun i => (span.getD i (F.inf, F.ninf)).2) o t m loose (downFrom ph)
    (fun i hi => ho i ((Angel.mem_downFrom ph i).mp hi))
    (fun i hi => ht i ((Angel.mem_downFrom ph i).mp hi))
    (fun i hi => hm i ((Angel.mem_downFrom ph i).mp hi))
    (fun i hi => hbd i ((Angel.mem_downFrom ph i).mp hi))
    hlog 0 1
  have hpos := (Angel.penaltySumQ_nonneg logq o t m loose (downFrom ph)
    (fun i hi => hbd i ((Angel.mem_downFrom ph i).mp hi)) hlog 1
    (by norm_num)).2
    (by obtain ⟨k, hk, hkv⟩ := hviol
        exact ⟨k, (Angel.mem_downFrom ph k).mpr hk, hkv⟩)
  set S := penaltySumQ logq o t m loose (downFrom ph) 1 with hS
  unfold apply_penalty
  rw [hfold]
  simp only [zero_add]
  rw [show F.blt (F.fin 0) (F.fin S) = true by
    rw [F.blt_fin]; exact decide_eq_true hpos]
  simp only [if_true]
  rw [hsp]
  have hsum : S = ∑ k ∈ Finset.range ph,
      (if t k < o k then
        1 / (1 - logq ((o k - t k) / (m k - t k)))
          + (if loose then 0 else 2 ^ (ph - 1 - k))
       else 0) := by
    rw [hS, Angel.penaltySumQ_downFrom]
    exact Finset.sum_congr rfl (fun k _ => by cases loose <;> simp)
  cases loose with
  | false =>
      simp only [Bool.false_eq_true, if_false]
      rw [F.sub_fin, F.mul_fin, F.mul_fin, hop, F.add_fin,
        objAt_listSet_self _ _ _ hlen]
      rw [hsum]
      norm_num
  | true =>
      simp only [if_true, F.add_fin]
      rw [F.sub_fin, F.mul_fin, F.mul_fin, hop, F.add_fin,
        objAt_listSet_self _ _ _ hlen]
      rw [hsum]
      norm_num

/-- C2 (witness): one higher-priority objective, measured 3 against
threshold 1 with span maximum 3, in strict mode with `log ≡ 0`: the soft
component is 1, the base is 1, and objective 1 is raised by
`2 * (2 - 0) * 1 = 4`, from 10 to 14. -/
theorem claim_C2_witness :
    objAt (apply_penalty (fun _ => 0) 1 false 1
      [(F.fin 0, F.fin 3), (F.fin 0, F.fin 2)] [F.fin 1]
      [F.fin 3, F.fin 10]) 1 = F.fin 14 := by
  have h := claim_C2 (fun _ => 0) 1 false 1
    [(F.fin 0, F.fin 3), (F.fin 0, F.fin 2)] [F.fin 1] [F.fin 3, F.fin 10]
    (fun _ => 3) (fun _ => 1) (fun _ => 3) 10 0 2
    (by intro i hi; interval_cases i <;> rfl)
    (by intro i hi; interval_cases i <;> rfl)
    (by intro i hi; interval_cases i <;> rfl)
    (by intro i hi hv; norm_num)
    (fun q _ _ => le_refl 0)
    ⟨0, by norm_num⟩
    rfl rfl (by norm_num)
  rw [h]
  norm_num [Finset.sum_range_one]

theorem F.blt_ble {a b : F} (h : F.blt a b = true) : F.ble a b = true := by
  cases a <;> cases b <;> simp_all [F.blt, F.ble]
  exact le_of_lt h

theorem F.ble_refl {a : F} (ha : a ≠ F.nan) : F.ble a a = true := by
  cases a <;> simp_all [F.ble]

theorem F.total_ble {a b : F} (ha : a ≠ F.nan) (hb : b ≠ F.nan)
    (h : F.blt a b = false) : F.ble b a = true := by
  cases a <;> cases b <;> simp_all [F.blt, F.ble]

theorem Angel.nst_proj (s s' : State) (h : nm_state_transition s = some s') :
    s'.best_perf = s.best_perf ∧ s'.best = s.best ∧ s'.phase = s.phase
    ∧ s'.next_id = s.next_id := by
  unfold nm_state_transition at h
  cases hst : s.state <;> rw [hst] at h <;> dsimp only at h <;>
    repeat' split at h
  all_goals
    first
    | (injection h with h2; subst h2; exact ⟨rfl, rfl, rfl, rfl⟩)
    | exact Option.noConfusion h

theorem Angel.mim_proj (pr : Prims) (s s' : State)
    (h : make_initial_simplex pr s = some s') :
    s'.best_perf = s.best_perf ∧ s'.best = s.best ∧ s'.phase = s.phase
    ∧ s'.next_id = s.next_id ∧ s'.state = s.state ∧ s'.simplex = s.simplex
    ∧ s'.samesimplex = s.samesimplex ∧ s'.anchor = s.anchor
    ∧ s'.index_best = s.index_best ∧ s'.centroid = s.centroid
    ∧ s'.next = s.next ∧ s'.space = s.space ∧ s'.index_curr = s.index_curr := by
  unfold make_initial_simplex at h
  dsimp only at h
  repeat' split at h
  all_goals
    first
    | (injection h with h2; subst h2
       exact ⟨rfl, rfl, rfl, rfl, rfl, rfl, rfl, rfl, rfl, rfl, rfl, rfl, rfl⟩)
    | exact Option.noConfusion h

theorem Angel.modifyNext_proj (s : State) (f : Vertex → Vertex) :
    (modifyNext s f).phase = s.phase ∧ (modifyNext s f).best_perf = s.best_perf
    ∧ (modifyNext s f).best = s.best ∧ (modifyNext s f).next_id = s.next_id
    ∧ (modifyNext s f).next = s.next ∧ (modifyNext s f).state = s.state := by
  unfold modifyNext setNext getNext
  cases s.next <;> exact ⟨rfl, rfl, rfl, rfl, rfl, rfl⟩

theorem Angel.ms_proj (pr : Prims) (s : State) (trial : Trial) :
    (measured_state pr s trial).phase = s.phase
    ∧ (measured_state pr s trial).next_id = s.next_id
    ∧ (measured_state pr s trial).best_perf = s.best_perf
    ∧ (measured_state pr s trial).best = s.best
    ∧ (measured_state pr s trial).state = s.state := by
  unfold measured_state modifyNext setNext getNext
  cases s.next <;> exact ⟨rfl, rfl, rfl, rfl, rfl⟩

theorem Angel.bu_proj (s : State) (trial : Trial) :
    (best_update s trial).phase = s.phase
    ∧ (best_update s trial).next_id = s.next_id
    ∧ (best_update s trial).state = s.state := by
  unfold best_update
  dsimp only
  split <;> exact ⟨rfl, rfl, rfl⟩

theorem Angel.ipp_proj (pr : Prims) (s : State) :
    (increment_phase_post pr s).phase = s.phase
    ∧ (increment_phase_post pr s).next_id = s.next_id
    ∧ (increment_phase_post pr s).best_perf = hperf_reset s.best_perf
    ∧ (increment_phase_post pr s).best.id = 0
    ∧ (increment_phase_post pr s).state = SimplexState.INIT := by
  unfold increment_phase_post
  dsimp only
  split <;> exact ⟨rfl, rfl, rfl, rfl, rfl⟩

theorem Angel.ip_proj (pr : Prims) (s s' : State)
    (h : increment_phase pr s = some s') :
    s'.phase = s.phase + 1 ∧ s'.next_id = s.next_id
    ∧ s'.best_perf = hperf_reset s.best_perf ∧ s'.best.id = 0
    ∧ s'.state = SimplexState.INIT := by
  unfold increment_phase at h
  dsimp only at h
  repeat' split at h
  all_goals
    first
    | (injection h with h2; subst h2
       obtain ⟨q1, q2, q3, q4, q5⟩ := Angel.ipp_proj pr _
       exact ⟨q1, q2, q3, q4, q5⟩)
    | exact Option.noConfusion h
    | (rename_i sM heq
       obtain ⟨m1, m2, m3, m4, m5, m6, m7, m8, m9, m10, m11, m12, m13⟩ :=
         Angel.mim_proj _ _ _ heq
       injection h with h2; subst h2
       obtain ⟨q1, q2, q3, q4, q5⟩ := Angel.ipp_proj pr sM
       exact ⟨by rw [q1, m3], by rw [q2, m4], by rw [q3, m1], q4, q5⟩)

theorem Angel.ccv_best (pr : Prims) (s s' : State)
    (h : cc_converged pr s = some s') :
    s'.next_id = s.next_id ∧ s.phase ≤ s'.phase
    ∧ (s'.phase = s.phase → s'.best_perf = s.best_perf ∧ s'.best = s.best) := by
  unfold cc_converged at h
  split at h
  · injection h with h2; subst h2
    exact ⟨rfl, le_refl _, fun _ => ⟨rfl, rfl⟩⟩
  · obtain ⟨p1, p2, p3, p4, p5⟩ := Angel.ip_proj pr s s' h
    exact ⟨p2, by omega, fun hph => absurd hph (by omega)⟩

theorem Angel.cc_best (pr : Prims) (s s' : State)
    (h : check_convergence pr s = some s') :
    s'.next_id = s.next_id ∧ s.phase ≤ s'.phase
    ∧ (s'.phase = s.phase → s'.best_perf = s.best_perf ∧ s'.best = s.best) := by
  unfold check_convergence at h
  dsimp only at h
  repeat' split at h
  all_goals
    first
    | (injection h with h2; subst h2
       exact ⟨rfl, le_refl _, fun _ => ⟨rfl, rfl⟩⟩)
    | (have hcv := Angel.ccv_best pr _ s' h; exact hcv)

theorem Angel.nnv_proj (pr : Prims) (s s' : State)
    (h : nm_next_vertex pr s = some s') :
    s'.best_perf = s.best_perf ∧ s'.best = s.best ∧ s'.phase = s.phase
    ∧ s'.next_id = s.next_id ∧ s'.state = s.state := by
  unfold nm_next_vertex at h
  cases hst : s.state <;> rw [hst] at h <;> dsimp only at h <;>
    repeat' split at h
  all_goals
    first
    | (injection h with h2; subst h2; exact ⟨rfl, rfl, rfl, rfl, rfl⟩)
    | (injection h with h2; subst h2; exact ⟨rfl, rfl, rfl, rfl, hst⟩)
    | exact Option.noConfusion h

theorem Angel.nm_best (pr : Prims) : ∀ (fuel : ℕ) (s s' : State),
    nm_algorithm pr fuel s = some s' →
    s'.next_id = s.next_id ∧ s.phase ≤ s'.phase
    ∧ (s'.phase = s.phase → s'.best_perf = s.best_perf ∧ s'.best = s.best) := by
  intro fuel
  induction fuel with
  | zero =>
      intro s s' h
      rw [nm_algorithm] at h
      split at h
      · injection h with h2; subst h2
        exact ⟨rfl, le_refl _, fun _ => ⟨rfl, rfl⟩⟩
      · exact Option.noConfusion h
  | succ fuel ih =>
      intro s s' h
      rw [nm_algorithm] at h
      split at h
      · injection h with h2; subst h2
        exact ⟨rfl, le_refl _, fun _ => ⟨rfl, rfl⟩⟩
      · cases hnst : nm_state_transition s with
        | none => rw [hnst] at h; exact Option.noConfusion h
        | some s1 =>
          rw [hnst] at h
          dsimp only at h
          obtain ⟨n1, n2, n3, n4⟩ := Angel.nst_proj s s1 hnst
          by_cases hR : s1.state = SimplexState.REFLECT
          · rw [if_pos hR] at h
            cases hcc : check_convergence pr (update_centroid s1) with
            | none => rw [hcc] at h; exact Option.noConfusion h
            | some s2 =>
              rw [hcc] at h
              dsimp only at h
              obtain ⟨c1, c2, c3⟩ := Angel.cc_best pr _ s2 hcc
              have u1 : (update_centroid s1).phase = s1.phase := rfl
              have u2 : (update_centroid s1).next_id = s1.next_id := rfl
              have u3 : (update_centroid s1).best_perf = s1.best_perf := rfl
              have u4 : (update_centroid s1).best = s1.best := rfl
              rw [u1] at c2
              rw [u2] at c1
              cases hnnv : nm_next_vertex pr s2 with
              | none => rw [hnnv] at h; exact Option.noConfusion h
              | some s3 =>
                rw [hnnv] at h
                dsimp only at h
                obtain ⟨v1, v2, v3, v4, v5⟩ := Angel.nnv_proj pr s2 s3 hnnv
                have step : ∀ t : State, t.next_id = s3.next_id →
                    s3.phase ≤ t.phase →
                    (t.phase = s3.phase → t.best_perf = s3.best_perf
                      ∧ t.best = s3.best) →
                    t.next_id = s.next_id ∧ s.phase ≤ t.phase
                    ∧ (t.phase = s.phase → t.best_perf = s.best_perf
                        ∧ t.best = s.best) := by
                  intro t ht1 ht2 ht3
                  refine ⟨by rw [ht1, v4, c1, n4], by omega, fun hph => ?_⟩
                  have h2eq : s2.phase = (update_centroid s1).phase := by omega
                  obtain ⟨cb1, cb2⟩ := c3 h2eq
                  obtain ⟨tb1, tb2⟩ := ht3 (by omega)
                  rw [tb1, tb2, v1, v2, cb1, cb2, u3, u4]
                  exact ⟨n1, n2⟩
                split at h
                · injection h with h2; subst h2
                  exact step s3 rfl (le_refl _) (fun _ => ⟨rfl, rfl⟩)
                · obtain ⟨i1, i2, i3⟩ := ih s3 s' h
                  exact step s' i1 i2 i3
          · rw [if_neg hR] at h
            dsimp only at h
            cases hnnv : nm_next_vertex pr s1 with
            | none => rw [hnnv] at h; exact Option.noConfusion h
            | some s3 =>
              rw [hnnv] at h
              dsimp only at h
              obtain ⟨v1, v2, v3, v4, v5⟩ := Angel.nnv_proj pr s1 s3 hnnv
              have step : ∀ t : State, t.next_id = s3.next_id →
                  s3.phase ≤ t.phase →
                  (t.phase = s3.phase → t.best_perf = s3.best_perf
                    ∧ t.best = s3.best) →
                  t.next_id = s.next_id ∧ s.phase ≤ t.phase
                  ∧ (t.phase = s.phase → t.best_perf = s.best_perf
                      ∧ t.best = s.best) := by
                intro t ht1 ht2 ht3
                refine ⟨by rw [ht1, v4, n4], by omega, fun hph => ?_⟩
                obtain ⟨tb1, tb2⟩ := ht3 (by omega)
                rw [tb1, tb2, v1, v2]
                exact ⟨n1, n2⟩
              split at h
              · injection h with h2; subst h2
                exact step s3 rfl (le_refl _) (fun _ => ⟨rfl, rfl⟩)
              · obtain ⟨i1, i2, i3⟩ := ih s3 s' h
                exact step s' i1 i2 i3

/-- C7: within one ANGEL phase the tracked best is monotone.  A successful
`strategy_analyze` call can only move the phase forward, and while the phase
is unchanged the best data is exactly what the best-update block computed
from the measured trial; with a best already recorded, that block keeps the
recorded best objective for the current phase unless the penalty-adjusted
measured objective is strictly smaller under IEEE comparison, so the best
objective never increases within a phase; and `increment_phase` resets the
best (performance reset to +∞, id 0) as the phase advances. -/
theorem claim_C7 (pr : Prims) (fuel : ℕ) (s s' : State) (trial : Trial)
    (h : strategy_analyze pr fuel s trial = some s') :
    (s.phase ≤ s'.phase
      ∧ (s'.phase = s.phase →
          s'.best_perf = (best_update (measured_state pr s trial) trial).best_perf
          ∧ s'.best = (best_update (measured_state pr s trial) trial).best))
    ∧ (s.best_perf.length ≠ 0 →
        objAt (best_update (measured_state pr s trial) trial).best_perf
            s.phase.toNat
          = if F.blt (adjusted_obj pr s trial) (objAt s.best_perf s.phase.toNat)
            then adjusted_obj pr s trial
            else objAt s.best_perf s.phase.toNat)
    ∧ (s.best_perf.length ≠ 0 → objAt s.best_perf s.phase.toNat ≠ F.nan →
        F.ble (objAt (best_update (measured_state pr s trial) trial).best_perf
                s.phase.toNat)
              (objAt s.best_perf s.phase.toNat) = true)
    ∧ (∀ s0 s1, increment_phase pr s0 = some s1 →
        s1.phase = s0.phase + 1 ∧ s1.best_perf = hperf_reset s0.best_perf
        ∧ s1.best.id = 0) := by
  obtain ⟨m1, m2, m3, m4, m5⟩ := Angel.ms_proj pr s trial
  obtain ⟨b1, b2, b3⟩ := Angel.bu_proj (measured_state pr s trial) trial
  have hrec : s.best_perf.length ≠ 0 →
      objAt (best_update (measured_state pr s trial) trial).best_perf
          s.phase.toNat
        = if F.blt (adjusted_obj pr s trial) (objAt s.best_perf s.phase.toNat)
          then adjusted_obj pr s trial
          else objAt s.best_perf s.phase.toNat := by
    intro hlen
    unfold adjusted_obj
    unfold best_update
    dsimp only
    rw [m3, m1]
    have hd : decide (s.best_perf.length = 0) = false := by simp [hlen]
    rw [hd, Bool.false_or]
    split
    · rfl
    · rw [m3]
  have hble : s.best_perf.length ≠ 0 → objAt s.best_perf s.phase.toNat ≠ F.nan →
      F.ble (objAt (best_update (measured_state pr s trial) trial).best_perf
              s.phase.toNat)
            (objAt s.best_perf s.phase.toNat) = true := by
    intro hlen hnan
    rw [hrec hlen]
    by_cases hb : F.blt (adjusted_obj pr s trial)
        (objAt s.best_perf s.phase.toNat) = true
    · rw [if_pos hb]; exact F.blt_ble hb
    · rw [if_neg hb]; exact F.ble_refl hnan
  refine ⟨?_, hrec, hble, fun s0 s1 h01 => ?_⟩
  · unfold strategy_analyze at h
    dsimp only at h
    split at h
    · exact Option.noConfusion h
    · cases hnm : nm_algorithm pr fuel
          (best_update (measured_state pr s trial) trial) with
      | none => rw [hnm] at h; exact Option.noConfusion h
      | some s2 =>
        rw [hnm] at h
        dsimp only at h
        obtain ⟨a1, a2, a3⟩ := Angel.nm_best pr fuel _ s2 hnm
        rw [b1, m1] at a2
        split at h
        · injection h with h2; subst h2
          refine ⟨a2, fun hph => ?_⟩
          have hph2 : s2.phase
              = (best_update (measured_state pr s trial) trial).phase := by
            rw [b1, m1]; exact hph
          exact a3 hph2
        · injection h with h2; subst h2
          refine ⟨a2, fun hph => ?_⟩
          have hph2 : s2.phase
              = (best_update (measured_state pr s trial) trial).phase := by
            rw [b1, m1]; exact hph
          exact a3 hph2
  · obtain ⟨p1, p2, p3, p4, p5⟩ := Angel.ip_proj pr s0 s1 h01
    exact ⟨p1, p3, p4⟩

/-- C7 (witness): the amended monotonicity facts evaluated on the first
measurement of the flat-measurement run. -/
theorem claim_C7_witness :
    strategy_analyze prRun 8 sAfterGen1 ⟨1, [10], [F.fin 5]⟩ = some sAnalyzed1
    ∧ sAfterGen1.phase ≤ sAnalyzed1.phase := by
  have h : strategy_analyze prRun 8 sAfterGen1 ⟨1, [10], [F.fin 5]⟩
      = some sAnalyzed1 := by rfl
  exact ⟨h, (claim_C7 prRun 8 sAfterGen1 sAnalyzed1 ⟨1, [10], [F.fin 5]⟩ h).1.1⟩

theorem listSet_length {α : Type} (l : List α) (i : ℕ) (a : α) :
    (listSet l i a).length = l.length := by
  simp [listSet]

theorem listSet_getD {α : Type} (l : List α) (i : ℕ) (a d : α)
    (h : i < l.length) : (listSet l i a).getD i d = a := by
  induction l generalizing i with
  | nil => simp at h
  | cons x xs ih =>
      cases i with
      | zero => rfl
      | succ n => exact ih n (by simpa using h)

theorem Angel.nextOK_eq (s s' : State) (hn : s'.next = s.next)
    (hl : s'.simplex.length = s.simplex.length) (h : nextOK s) : nextOK s' := by
  intro i hi
  rw [hn] at hi
  rw [hl]
  exact h i hi

theorem Angel.modifyNext_len (s : State) (f : Vertex → Vertex) :
    (modifyNext s f).simplex.length = s.simplex.length := by
  unfold modifyNext setNext
  cases s.next
  · exact listSet_length _ _ _
  · rfl
  · rfl
  · rfl

theorem Angel.modifyNext_nextOK (s : State) (f : Vertex → Vertex)
    (h : nextOK s) : nextOK (modifyNext s f) :=
  Angel.nextOK_eq s (modifyNext s f) (Angel.modifyNext_proj s f).2.2.2.2.1
    (Angel.modifyNext_len s f) h

theorem Angel.getNext_modifyNext (s : State) (f : Vertex → Vertex)
    (h : nextOK s) : getNext (modifyNext s f) = f (getNext s) := by
  unfold modifyNext setNext getNext
  cases hn : s.next with
  | simplexAt j =>
      dsimp only
      exact listSet_getD _ _ _ _ (h j hn)
  | reflectV => rfl
  | expandV => rfl
  | contractV => rfl

theorem Angel.getNextId_modifyNext (s : State) (f : Vertex → Vertex)
    (hf : ∀ v, (f v).id = v.id) (h : nextOK s) :
    (getNext (modifyNext s f)).id = (getNext s).id := by
  rw [Angel.getNext_modifyNext s f h, hf]

theorem Angel.getNextId_keep (s : State) (g : Vertex → List F) (h : nextOK s) :
    (getNext (modifyNext s (fun v => { v with perf := g v }))).id
      = (getNext s).id := by
  rw [Angel.getNext_modifyNext s _ h]

theorem Angel.ms_conv (pr : Prims) (s : State) (t : Trial) (hn : nextOK s) :
    (getNext (measured_state pr s t)).id = (getNext s).id
    ∧ nextOK (measured_state pr s t)
    ∧ (measured_state pr s t).simplex.length = s.simplex.length := by
  unfold measured_state
  dsimp only
  have hOK1 := Angel.modifyNext_nextOK s (fun v => { v with perf := t.perf }) hn
  refine ⟨?_, ?_, ?_⟩
  · refine (Angel.getNextId_keep _ _ ?_).trans
      (Angel.getNextId_keep s (fun _ => t.perf) hn)
    exact hOK1
  · refine Angel.modifyNext_nextOK _ _ ?_
    exact hOK1
  · refine (Angel.modifyNext_len _ _).trans ?_
    exact Angel.modifyNext_len s _

theorem Angel.bu_getNext (s : State) (t : Trial) :
    getNext (best_update s t) = getNext s ∧ (best_update s t).next = s.next
    ∧ (best_update s t).simplex.length = s.simplex.length := by
  unfold best_update
  dsimp only
  split
  · exact ⟨rfl, rfl, rfl⟩
  · exact ⟨rfl, rfl, rfl⟩

theorem Angel.nm_conv (pr : Prims) (fuel : ℕ) (s : State)
    (h : s.state = SimplexState.CONVERGED) : nm_algorithm pr fuel s = some s := by
  cases fuel with
  | zero => rw [nm_algorithm, if_pos h]
  | succ n => rw [nm_algorithm, if_pos h]

theorem Angel.analyze_conv (pr : Prims) (fuel : ℕ) (s s' : State) (t : Trial)
    (hc : s.state = SimplexState.CONVERGED) (hn : nextOK s)
    (h : strategy_analyze pr fuel s t = some s') :
    s'.next_id = s.next_id ∧ s'.state = SimplexState.CONVERGED
    ∧ (getNext s').id = (getNext s).id ∧ nextOK s' := by
  obtain ⟨m1, m2, m3, m4, m5⟩ := Angel.ms_proj pr s t
  obtain ⟨b1, b2, b3⟩ := Angel.bu_proj (measured_state pr s t) t
  obtain ⟨g1, g2, g3⟩ := Angel.bu_getNext (measured_state pr s t) t
  obtain ⟨c1, c2, c3⟩ := Angel.ms_conv pr s t hn
  have hstate : (best_update (measured_state pr s t) t).state
      = SimplexState.CONVERGED := by rw [b3, m5, hc]
  unfold strategy_analyze at h
  dsimp only at h
  split at h
  · exact Option.noConfusion h
  · rw [Angel.nm_conv pr fuel _ hstate] at h
    dsimp only at h
    rw [if_neg (fun hne => hne hstate)] at h
    injection h with h2
    subst h2
    refine ⟨by rw [b2, m2], hstate, by rw [g1, c1], ?_⟩
    exact Angel.nextOK_eq _ _ g2 g3 c2

theorem Angel.gen_step (pr : Prims) (fuel : ℕ) (s : State) (hn : nextOK s) :
    ((getNext s).id = s.next_id ∧ runOp pr fuel s Op.gen = (s, []))
    ∨ ((getNext s).id ≠ s.next_id
       ∧ (runOp pr fuel s Op.gen).2
          = [(decide (s.state = SimplexState.CONVERGED), s.next_id)]
       ∧ (getNext (runOp pr fuel s Op.gen).1).id = s.next_id
       ∧ nextOK (runOp pr fuel s Op.gen).1
       ∧ (runOp pr fuel s Op.gen).1.next_id = s.next_id
       ∧ (runOp pr fuel s Op.gen).1.state = s.state
       ∧ (runOp pr fuel s Op.gen).1
          = modifyNext s (fun v => { v with id := s.next_id })) := by
  by_cases hb : (getNext s).id = s.next_id
  · have hg : strategy_generate s = (GenOut.wait, s) := by
      unfold strategy_generate
      rw [if_pos hb]
    left
    refine ⟨hb, ?_⟩
    dsimp only [runOp]
    rw [hg]
  · have hg : strategy_generate s
        = (GenOut.accept
            (vertex_point (getNext (modifyNext s (fun v => { v with id := s.next_id })))),
           modifyNext s (fun v => { v with id := s.next_id })) := by
      unfold strategy_generate
      rw [if_neg hb]
    have hgn : (getNext (modifyNext s (fun v => { v with id := s.next_id }))).id
        = s.next_id := by
      rw [Angel.getNext_modifyNext s _ hn]
    right
    refine ⟨hb, ?_, ?_, ?_, ?_, ?_, ?_⟩
    · dsimp only [runOp]
      rw [hg]
      dsimp only
      rw [show (vertex_point (getNext (modifyNext s
            (fun v => { v with id := s.next_id })))).id = s.next_id from hgn]
    · dsimp only [runOp]
      rw [hg]
      exact hgn
    · dsimp only [runOp]
      rw [hg]
      exact Angel.modifyNext_nextOK s _ hn
    · dsimp only [runOp]
      rw [hg]
      exact (Angel.modifyNext_proj s _).2.2.2.1
    · dsimp only [runOp]
      rw [hg]
      exact (Angel.modifyNext_proj s _).2.2.2.2.2
    · dsimp only [runOp]
      rw [hg]

theorem Angel.conv_step (pr : Prims) (fuel : ℕ) (s : State) (o : Op)
    (hc : s.state = SimplexState.CONVERGED) (hn : nextOK s) :
    (runOp pr fuel s o).1.state = SimplexState.CONVERGED
    ∧ (runOp pr fuel s o).1.next_id = s.next_id
    ∧ nextOK (runOp pr fuel s o).1
    ∧ ((runOp pr fuel s o).2 = []
        ∨ ((runOp pr fuel s o).2 = [(true, s.next_id)]
           ∧ (getNext (runOp pr fuel s o).1).id = (runOp pr fuel s o).1.next_id))
    ∧ ((getNext s).id = s.next_id →
        (runOp pr fuel s o).2 = []
        ∧ (getNext (runOp pr fuel s o).1).id = (runOp pr fuel s o).1.next_id) := by
  cases o with
  | gen =>
      rcases Angel.gen_step pr fuel s hn with
        ⟨hb, hr⟩ | ⟨hb, h2, hid, hok, hnid, hst, heq1⟩
      · rw [hr]
        exact ⟨hc, rfl, hn, Or.inl rfl, fun hbb => ⟨rfl, hbb⟩⟩
      · refine ⟨by rw [hst]; exact hc, hnid, hok, Or.inr ⟨?_, ?_⟩,
          fun hbb => absurd hbb hb⟩
        · rw [h2, hc]
          simp
        · rw [hid, hnid]
  | analyze t =>
      cases ha : strategy_analyze pr fuel s t with
      | none =>
          dsimp only [runOp]
          rw [ha]
          dsimp only
          exact ⟨hc, rfl, hn, Or.inl rfl, fun hbb => ⟨rfl, hbb⟩⟩
      | some s2 =>
          obtain ⟨a1, a2, a3, a4⟩ := Angel.analyze_conv pr fuel s s2 t hc hn ha
          dsimp only [runOp]
          rw [ha]
          dsimp only
          exact ⟨a2, a1, a4, Or.inl rfl, fun hbb => ⟨rfl, by rw [a3, a1]; exact hbb⟩⟩
  | rejectedOp hint rnd =>
      cases hint with
      | some hterm =>
          have hr : strategy_rejected pr fuel s (some hterm) rnd
              = some (⟨(getNext s).id, hterm⟩,
                  modifyNext s
                    (fun v => { v with id := (getNext s).id, term := hterm })) := by
            unfold strategy_rejected
            dsimp only
          dsimp only [runOp]
          rw [hr]
          dsimp only
          obtain ⟨p1, p2, p3, p4, p5, p6⟩ := Angel.modifyNext_proj s
            (fun v => { v with id := (getNext s).id, term := hterm })
          refine ⟨by rw [p6]; exact hc, p4, Angel.modifyNext_nextOK s _ hn,
            Or.inl rfl, fun hbb => ⟨rfl, ?_⟩⟩
          rw [Angel.getNext_modifyNext s _ hn, p4]
          exact hbb
      | none =>
          cases hrt : s.reject_type with
          | penalty =>
              have hok2 := Angel.modifyNext_nextOK s
                (fun v => { v with perf := hperf_reset v.perf }) hn
              have hst2 : (modifyNext s
                  (fun v => { v with perf := hperf_reset v.perf })).state
                  = SimplexState.CONVERGED := by
                rw [(Angel.modifyNext_proj s _).2.2.2.2.2]
                exact hc
              have hr : strategy_rejected pr fuel s none rnd
                  = some (vertex_point (getNext (modifyNext
                      (modifyNext s (fun v => { v with perf := hperf_reset v.perf }))
                      (fun v => { v with id := (modifyNext s
                        (fun v => { v with perf := hperf_reset v.perf })).next_id }))),
                    modifyNext
                      (modifyNext s (fun v => { v with perf := hperf_reset v.perf }))
                      (fun v => { v with id := (modifyNext s
                        (fun v => { v with perf := hperf_reset v.perf })).next_id })) := by
                unfold strategy_rejected
                dsimp only
                rw [hrt]
                dsimp only
                rw [Angel.nm_conv pr fuel _ hst2]
              dsimp only [runOp]
              rw [hr]
              dsimp only
              obtain ⟨q1, q2, q3, q4, q5, q6⟩ := Angel.modifyNext_proj
                (modifyNext s (fun v => { v with perf := hperf_reset v.perf }))
                (fun v => { v with id := (modifyNext s
                  (fun v => { v with perf := hperf_reset v.perf })).next_id })
              have hnid2 : (modifyNext s
                  (fun v => { v with perf := hperf_reset v.perf })).next_id
                  = s.next_id := (Angel.modifyNext_proj s _).2.2.2.1
              have hblk : (getNext (modifyNext
                  (modifyNext s (fun v => { v with perf := hperf_reset v.perf }))
                  (fun v => { v with id := (modifyNext s
                    (fun v => { v with perf := hperf_reset v.perf })).next_id }))).id
                  = s.next_id := by
                rw [Angel.getNext_modifyNext _ _ hok2]
                exact hnid2
              refine ⟨by rw [q6]; exact hst2, by rw [q4]; exact hnid2,
                Angel.modifyNext_nextOK _ _ hok2, Or.inl rfl,
                fun hbb => ⟨rfl, by rw [hblk, q4, hnid2]⟩⟩
          | random =>
              have hr : strategy_rejected pr fuel s none rnd
                  = some (vertex_point (getNext (modifyNext s
                      (fun v => { v with term := rnd, id := s.next_id }))),
                    modifyNext s (fun v => { v with term := rnd, id := s.next_id })) := by
                unfold strategy_rejected
                dsimp only
                rw [hrt]
              dsimp only [runOp]
              rw [hr]
              dsimp only
              obtain ⟨p1, p2, p3, p4, p5, p6⟩ := Angel.modifyNext_proj s
                (fun v => { v with term := rnd, id := s.next_id })
              refine ⟨by rw [p6]; exact hc, p4, Angel.modifyNext_nextOK s _ hn,
                Or.inl rfl, fun hbb => ⟨rfl, ?_⟩⟩
              rw [Angel.getNext_modifyNext s _ hn, p4]

theorem Angel.conv_run (pr : Prims) (fuel : ℕ) :
    ∀ (ops : List Op) (s : State),
      s.state = SimplexState.CONVERGED → nextOK s →
      ((runOps pr fuel s ops).2.length ≤ 1
       ∧ (∀ e ∈ (runOps pr fuel s ops).2, e = (true, s.next_id))
       ∧ ((getNext s).id = s.next_id → (runOps pr fuel s ops).2 = [])) := by
  intro ops
  induction ops with
  | nil =>
      intro s hc hn
      exact ⟨by simp [runOps], by simp [runOps], fun _ => by simp [runOps]⟩
  | cons o rest ih =>
      intro s hc hn
      obtain ⟨c1, c2, c3, c4, c5⟩ := Angel.conv_step pr fuel s o hc hn
      obtain ⟨i1, i2, i3⟩ := ih (runOp pr fuel s o).1 c1 c3
      have hE : (runOps pr fuel s (o :: rest)).2
          = (runOp pr fuel s o).2 ++ (runOps pr fuel (runOp pr fuel s o).1 rest).2 := by
        simp only [runOps]
      rcases c4 with hz | ⟨he, hblk⟩
      · rw [hE, hz, List.nil_append]
        refine ⟨i1, fun e hm => ?_, fun hbb => i3 (c5 hbb).2⟩
        rw [i2 e hm, c2]
      · rw [hE, he, i3 hblk]
        refine ⟨by simp, by simp, fun hbb => ?_⟩
        have := (c5 hbb).1
        rw [he] at this
        exact List.noConfusion this

/-- C9: once ANGEL's state machine is CONVERGED, `strategy_analyze` leaves
`next_id` unchanged and the machine CONVERGED; along any operation sequence
at most one further candidate is emitted, every such emission re-tags the
vertex `data->next` addresses with the current `next_id` (and is flagged as
made after convergence), and when the outstanding candidate id already
equals `next_id` every `generate` returns WAIT, so nothing is emitted at
all. -/
theorem claim_C9 (pr : Prims) (fuel : ℕ) (s : State)
    (hc : s.state = SimplexState.CONVERGED) (hn : nextOK s) :
    (∀ (t : Trial) (s' : State), strategy_analyze pr fuel s t = some s' →
        s'.next_id = s.next_id ∧ s'.state = SimplexState.CONVERGED)
    ∧ (∀ ops : List Op, (runOps pr fuel s ops).2.length ≤ 1
        ∧ ∀ e ∈ (runOps pr fuel s ops).2, e = (true, s.next_id))
    ∧ ((getNext s).id = s.next_id →
        ∀ ops : List Op, (runOps pr fuel s ops).2 = []) := by
  refine ⟨fun t s' h => ?_, fun ops => ?_, fun hbb ops => ?_⟩
  · obtain ⟨a1, a2, a3, a4⟩ := Angel.analyze_conv pr fuel s s' t hc hn h
    exact ⟨a1, a2⟩
  · obtain ⟨r1, r2, r3⟩ := Angel.conv_run pr fuel ops s hc hn
    exact ⟨r1, r2⟩
  · exact (Angel.conv_run pr fuel ops s hc hn).2.2 hbb

/-- C9 (witness): the post-convergence guarantees at a concrete CONVERGED
state: three generates emit at most one candidate. -/
theorem claim_C9_witness :
    sConv9.state = SimplexState.CONVERGED
    ∧ (runOps prRun 4 sConv9 [Op.gen, Op.gen, Op.gen]).2.length ≤ 1 := by
  refine ⟨rfl, ?_⟩
  exact ((claim_C9 prRun 4 sConv9 rfl (fun i h => nomatch h)).2.1
    [Op.gen, Op.gen, Op.gen]).1

theorem Pro.pns_next_id (st st' : ProState) (input : List PVertex) (bi : ℕ)
    (h : pro_next_state st input bi = some st') : st'.next_id = st.next_id := by
  unfold pro_next_state at h
  cases hst : st.state <;> rw [hst] at h <;> dsimp only at h <;>
    repeat' split at h
  all_goals
    first
    | (injection h with h2; subst h2; rfl)
    | exact Option.noConfusion h

theorem Pro.pcc_next_id (dist : List ℚ → List ℚ → ℚ) (st : ProState) :
    (pro_check_convergence dist st).next_id = st.next_id := by
  unfold pro_check_convergence
  dsimp only
  split
  · rfl
  · split
    · rfl
    · rfl

theorem Pro.palg_next_id (dist : List ℚ → List ℚ → ℚ) :
    ∀ (fuel : ℕ) (st st' : ProState), pro_algorithm dist fuel st = some st' →
      st'.next_id = st.next_id := by
  intro fuel
  induction fuel with
  | zero =>
      intro st st' h
      rw [pro_algorithm] at h
      split at h
      · injection h with h2; subst h2; rfl
      · exact Option.noConfusion h
  | succ n ih =>
      intro st st' h
      rw [pro_algorithm] at h
      split at h
      · injection h with h2; subst h2; rfl
      · cases hpns : pro_next_state st st.test st.best_test with
        | none => rw [hpns] at h; exact Option.noConfusion h
        | some st1 =>
          rw [hpns] at h
          dsimp only at h
          have e1 := Pro.pns_next_id st st1 _ _ hpns
          by_cases hR : st1.state = PState.REFLECT
          · rw [if_pos hR] at h
            cases hpnx : pro_next_simplex (pro_check_convergence dist st1) with
            | none => rw [hpnx] at h; exact Option.noConfusion h
            | some t =>
              rw [hpnx] at h
              dsimp only at h
              split at h
              · have e3 := ih _ st' h
                rw [e3]
                show (pro_check_convergence dist st1).next_id = st.next_id
                rw [Pro.pcc_next_id, e1]
              · injection h with h2; subst h2
                show (pro_check_convergence dist st1).next_id = st.next_id
                rw [Pro.pcc_next_id, e1]
          · rw [if_neg hR] at h
            cases hpnx : pro_next_simplex st1 with
            | none => rw [hpnx] at h; exact Option.noConfusion h
            | some t =>
              rw [hpnx] at h
              dsimp only at h
              split at h
              · have e3 := ih _ st' h
                rw [e3]
                show st1.next_id = st.next_id
                exact e1
              · injection h with h2; subst h2
                show st1.next_id = st.next_id
                exact e1

theorem Pro.report_next_id (dist : List ℚ → List ℚ → ℚ) (fuel : ℕ)
    (st : ProState) (rid : ℤ) (rperf : F) (rterm : List ℚ) :
    (strategy_report dist fuel st rid rperf rterm).2.next_id = st.next_id := by
  unfold strategy_report
  dsimp only
  split
  · rfl
  · rename_i i hfind
    split
    · rename_i hnone
      split
      · rfl
      · rfl
    · rename_i st3 hsome
      have e3 : st3.next_id = st.next_id := by
        repeat' split at hsome
        all_goals
          first
          | exact Option.noConfusion hsome
          | (injection hsome with h4; subst h4; rfl)
          | (rename_i st4 heq4
             injection hsome with h4
             subst h4
             have := Pro.palg_next_id dist fuel _ st4 heq4
             exact this)
      dsimp only
      split
      · exact e3
      · exact e3

theorem Pro.fetch_cases (st : ProState) :
    (st.send_idx = st.simplex_size ∧ strategy_fetch st = (.busy, st))
    ∨ (∃ st', strategy_fetch st
        = (.cand ⟨st.next_id, (st.test.getD st.send_idx default).term⟩, st')
        ∧ st'.next_id = st.next_id + 1) := by
  unfold strategy_fetch
  dsimp only
  split
  · exact Or.inl ⟨by assumption, rfl⟩
  · exact Or.inr ⟨_, rfl, rfl⟩

theorem Pro.ptrace (dist : List ℚ → List ℚ → ℚ) (fuel : ℕ) :
    ∀ (ops : List POp) (st : ProState),
      (∀ i ∈ (runPOps dist fuel st ops).2, st.next_id ≤ i)
      ∧ (runPOps dist fuel st ops).2.Pairwise (· < ·) := by
  intro ops
  induction ops with
  | nil =>
      intro st
      exact ⟨by simp [runPOps], by simp [runPOps]⟩
  | cons o rest ih =>
      intro st
      have hE : (runPOps dist fuel st (o :: rest)).2
          = (runPOp dist fuel st o).2
            ++ (runPOps dist fuel (runPOp dist fuel st o).1 rest).2 := by
        simp only [runPOps]
      cases o with
      | report rid rperf rterm =>
          rw [hE]
          have hnid : (runPOp dist fuel st (POp.report rid rperf rterm)).1.next_id
              = st.next_id := Pro.report_next_id dist fuel st rid rperf rterm
          obtain ⟨i1, i2⟩ := ih (runPOp dist fuel st (POp.report rid rperf rterm)).1
          rw [hnid] at i1
          rw [show (runPOp dist fuel st (POp.report rid rperf rterm)).2 = []
                from rfl, List.nil_append]
          exact ⟨i1, i2⟩
      | fetch =>
          rcases Pro.fetch_cases st with ⟨hb, hf⟩ | ⟨st2, hf, hn2⟩
          · have h1 : runPOp dist fuel st POp.fetch = (st, []) := by
              dsimp only [runPOp]
              rw [hf]
            rw [hE, h1]
            dsimp only
            rw [List.nil_append]
            exact ih st
          · have h1 : runPOp dist fuel st POp.fetch = (st2, [st.next_id]) := by
              dsimp only [runPOp]
              rw [hf]
            rw [hE, h1]
            dsimp only
            obtain ⟨i1, i2⟩ := ih st2
            rw [hn2] at i1
            rw [List.singleton_append]
            refine ⟨?_, List.pairwise_cons.mpr ⟨?_, i2⟩⟩
            · intro x hx
              rcases List.mem_cons.mp hx with hx0 | hxr
              · exact le_of_eq hx0.symm
              · have := i1 x hxr
                omega
            · intro b hb
              have := i1 b hb
              omega

theorem Angel.foldl_pair_bound (n : ℕ) (g : ℕ × ℕ → ℕ → ℕ × ℕ)
    (hg : ∀ bw i, ((g bw i).1 = bw.1 ∨ (g bw i).1 = i)
      ∧ ((g bw i).2 = bw.2 ∨ (g bw i).2 = i)) :
    ∀ (l : List ℕ) (bw : ℕ × ℕ), (∀ j ∈ l, j < n) → bw.1 < n → bw.2 < n →
      (l.foldl g bw).1 < n ∧ (l.foldl g bw).2 < n := by
  intro l
  induction l with
  | nil => intro bw _ h1 h2; exact ⟨h1, h2⟩
  | cons j rest ih =>
      intro bw hl h1 h2
      rw [List.foldl_cons]
      refine ih (g bw j) (fun x hx => hl x (List.mem_cons_of_mem _ hx)) ?_ ?_
      · rcases (hg bw j).1 with e | e
        · rw [e]; exact h1
        · rw [e]; exact hl j (List.mem_cons_self _ _)
      · rcases (hg bw j).2 with e | e
        · rw [e]; exact h2
        · rw [e]; exact hl j (List.mem_cons_self _ _)

theorem Angel.scanBestWorst_lt (s : State) (h : 0 < s.simplex.length) :
    (scanBestWorst s).1 < s.simplex.length
    ∧ (scanBestWorst s).2 < s.simplex.length := by
  unfold scanBestWorst
  refine Angel.foldl_pair_bound s.simplex.length _ ?_ _ _ ?_ h h
  · intro bw i
    dsimp only
    constructor
    · split
      · exact Or.inr rfl
      · exact Or.inl rfl
    · split
      · exact Or.inr rfl
      · exact Or.inl rfl
  · intro j hj
    exact List.mem_range.mp hj

theorem Angel.uc_parts (x : State) (hp : 0 < x.simplex.length) :
    (update_centroid x).index_best < x.simplex.length
    ∧ (update_centroid x).index_worst < x.simplex.length := by
  unfold update_centroid
  dsimp only
  exact Angel.scanBestWorst_lt x hp

theorem Angel.foldl_listSet_length (g : List Vertex → ℕ → Vertex) :
    ∀ (l : List ℕ) (acc : List Vertex),
      (l.foldl (fun acc i => listSet acc i (g acc i)) acc).length = acc.length := by
  intro l
  induction l with
  | nil => intro acc; rfl
  | cons j rest ih =>
      intro acc
      rw [List.foldl_cons, ih, listSet_length]

theorem Angel.sta_length (vt : List ℚ → List ℚ → ℚ → List ℚ)
    (sx : List Vertex) (p : ℕ) (c : ℚ) :
    (simplex_transform_at vt sx p c).length = sx.length := by
  unfold simplex_transform_at
  exact Angel.foldl_listSet_length _ _ _

theorem Angel.modifyNext_proj2 (s : State) (f : Vertex → Vertex) :
    (modifyNext s f).space = s.space
    ∧ (modifyNext s f).init_simplex = s.init_simplex
    ∧ (modifyNext s f).index_best = s.index_best
    ∧ (modifyNext s f).index_curr = s.index_curr := by
  unfold modifyNext setNext
  cases s.next <;> exact ⟨rfl, rfl, rfl, rfl⟩

theorem Angel.modifyNext_WF (s : State) (f : Vertex → Vertex) (h : WF s) :
    WF (modifyNext s f) := by
  obtain ⟨h1, h2, h3, h4, h5⟩ := h
  obtain ⟨p1, p2, p3, p4⟩ := Angel.modifyNext_proj2 s f
  refine ⟨?_, ?_, ?_, ?_, ?_⟩
  · rw [Angel.modifyNext_len, p1]; exact h1
  · rw [p2, p1]; exact h2
  · rw [p3, Angel.modifyNext_len]; exact h3
  · rw [p4, p1]; exact h4
  · exact Angel.modifyNext_nextOK s f h5

theorem Angel.ms_WF (pr : Prims) (s : State) (t : Trial) (h : WF s) :
    WF (measured_state pr s t) := by
  unfold measured_state
  dsimp only
  refine Angel.modifyNext_WF _ _ ?_
  exact Angel.modifyNext_WF s (fun v => { v with perf := t.perf }) h

theorem Angel.bu_WF (s : State) (t : Trial) (h : WF s) : WF (best_update s t) := by
  unfold best_update
  dsimp only
  split
  · exact h
  · exact h

theorem Angel.nst_WF (s s' : State) (h : nm_state_transition s = some s')
    (hw : WF s) : WF s' := by
  obtain ⟨h1, h2, h3, h4, h5⟩ := hw
  have hpos : 0 < s.simplex.length := by omega
  unfold nm_state_transition at h
  cases hst : s.state <;> rw [hst] at h <;> dsimp only at h <;>
    repeat' split at h
  all_goals
    first
    | exact Option.noConfusion h
    | (injection h with hs; subst hs
       first
       | exact ⟨h1, h2, h3, h4, fun i hi => h5 i hi⟩
       | (refine ⟨h1, h2, (Angel.uc_parts _ hpos).1,
            show (0 : ℤ) ≤ (s.space.length : ℤ) from by omega,
            fun i hi => h5 i hi⟩)
       | (refine ⟨h1, h2, h3,
            show s.index_curr + 1 ≤ (s.space.length : ℤ) from by omega,
            fun i hi => h5 i hi⟩)
       | (refine ⟨h1, h2, h3,
            show (-1 : ℤ) ≤ (s.space.length : ℤ) from by omega,
            fun i hi => h5 i hi⟩)
       | (refine ⟨?_, h2,
            (Angel.uc_parts _ (show 0 < (listSet s.simplex s.index_worst _).length
              from by rw [listSet_length]; omega)).1, h4, fun i hi => ?_⟩
          · show (listSet s.simplex s.index_worst _).length = s.space.length + 1
            rw [listSet_length]
            exact h1
          · show i < (listSet s.simplex s.index_worst _).length
            rw [listSet_length]
            exact h5 i hi))

theorem Angel.mim_WF (pr : Prims) (hpr : prOK pr) (s s' : State)
    (h : make_initial_simplex pr s = some s') (hw : WF s) : WF s' := by
  obtain ⟨h1, h2, h3, h4, h5⟩ := hw
  unfold make_initial_simplex at h
  dsimp only at h
  split at h
  · exact Option.noConfusion h
  · rename_i rows heq
    injection h with hs
    subst hs
    have hr := hpr _ _ _ _ heq
    refine ⟨h1, ?_, h3, h4, fun i hi => h5 i hi⟩
    show (rows.map _).length = s.space.length + 1
    rw [List.length_map]
    exact hr

theorem Angel.ipp_WF (pr : Prims) (s : State) (hw : WF s) :
    WF (increment_phase_post pr s) := by
  obtain ⟨h1, h2, h3, h4, h5⟩ := hw
  unfold increment_phase_post
  dsimp only
  split
  · refine ⟨?_, h2, ?_, h4, fun i hi => ?_⟩
    · show (listSet s.init_simplex _ _).length = s.space.length + 1
      rw [listSet_length]
      exact h2
    · show s.index_best < (listSet s.init_simplex _ _).length
      rw [listSet_length, h2]
      omega
    · show i < (listSet s.init_simplex _ _).length
      rw [listSet_length, h2]
      have := h5 i hi
      omega
  · refine ⟨h2, h2, ?_, h4, fun i hi => ?_⟩
    · show s.index_best < s.init_simplex.length
      rw [h2]
      omega
    · show i < s.init_simplex.length
      rw [h2]
      have := h5 i hi
      omega

theorem Angel.ip_WF (pr : Prims) (hpr : prOK pr) (s s' : State)
    (h : increment_phase pr s = some s') (hw : WF s) : WF s' := by
  unfold increment_phase at h
  dsimp only at h
  repeat' split at h
  all_goals
    first
    | exact Option.noConfusion h
    | (injection h with hs; subst hs
       exact Angel.ipp_WF pr _ hw)
    | (rename_i sM heq
       injection h with hs
       subst hs
       exact Angel.ipp_WF pr sM (Angel.mim_WF pr hpr _ sM heq hw))

theorem Angel.ccv_WF (pr : Prims) (hpr : prOK pr) (s s' : State)
    (h : cc_converged pr s = some s') (hw : WF s) : WF s' := by
  unfold cc_converged at h
  split at h
  · injection h with hs; subst hs; exact hw
  · exact Angel.ip_WF pr hpr s s' h hw

theorem Angel.cc_WF (pr : Prims) (hpr : prOK pr) (s s' : State)
    (h : check_convergence pr s = some s') (hw : WF s) : WF s' := by
  unfold check_convergence at h
  dsimp only at h
  repeat' split at h
  all_goals
    first
    | (injection h with hs; subst hs; exact hw)
    | (have hcw := Angel.ccv_WF pr hpr _ s' h hw
       exact hcw)

theorem Angel.nnv_WF (pr : Prims) (s s' : State)
    (h : nm_next_vertex pr s = some s') (hw : WF s) : WF s' := by
  obtain ⟨h1, h2, h3, h4, h5⟩ := hw
  unfold nm_next_vertex at h
  cases hst : s.state <;> rw [hst] at h <;> dsimp only at h <;>
    repeat' split at h
  all_goals injection h with hs
  all_goals subst hs
  all_goals refine Angel.modifyNext_WF _ _ ?_
  all_goals
    first
    | (refine ⟨h1, h2, h3, h4, fun i hi => ?_⟩
       exact NextPtr.noConfusion hi)
    | (refine ⟨h1, h2, h3, h4, fun i hi => ?_⟩
       injection hi with hj
       subst hj
       show s.index_curr.toNat < s.simplex.length
       omega)
    | (refine ⟨h1, h2, h3, h4, fun i hi => ?_⟩
       injection hi with hj
       subst hj
       show s.index_best < s.simplex.length
       exact h3)
    | (refine ⟨?_, h2, ?_,
         show (0 : ℤ) ≤ (s.space.length : ℤ) from by omega,
         fun i hi => ?_⟩
       · show (simplex_transform_at pr.vt s.simplex s.index_best _).length
             = s.space.length + 1
         rw [Angel.sta_length]
         exact h1
       · show s.index_best
             < (simplex_transform_at pr.vt s.simplex s.index_best _).length
         rw [Angel.sta_length]
         exact h3
       · injection hi with hj
         subst hj
         show (0 : ℤ).toNat
             < (simplex_transform_at pr.vt s.simplex s.index_best _).length
         rw [Angel.sta_length]
         omega)

theorem Angel.nm_WF (pr : Prims) (hpr : prOK pr) :
    ∀ (fuel : ℕ) (s s' : State), nm_algorithm pr fuel s = some s' →
      WF s → WF s' := by
  intro fuel
  induction fuel with
  | zero =>
      intro s s' h hw
      rw [nm_algorithm] at h
      split at h
      · injection h with h2; subst h2; exact hw
      · exact Option.noConfusion h
  | succ fuel ih =>
      intro s s' h hw
      rw [nm_algorithm] at h
      split at h
      · injection h with h2; subst h2; exact hw
      · cases hnst : nm_state_transition s with
        | none => rw [hnst] at h; exact Option.noConfusion h
        | some s1 =>
          rw [hnst] at h
          dsimp only at h
          have hw1 : WF s1 := Angel.nst_WF s s1 hnst hw
          by_cases hR : s1.state = SimplexState.REFLECT
          · rw [if_pos hR] at h
            cases hcc : check_convergence pr (update_centroid s1) with
            | none => rw [hcc] at h; exact Option.noConfusion h
            | some s2 =>
              rw [hcc] at h
              dsimp only at h
              have hwu : WF (update_centroid s1) := by
                have hp1 : 0 < s1.simplex.length := by
                  have := hw1.1
                  omega
                obtain ⟨u1, u2⟩ := Angel.uc_parts s1 hp1
                exact ⟨hw1.1, hw1.2.1, u1, hw1.2.2.2.1,
                  fun i hi => hw1.2.2.2.2 i hi⟩
              have hw2 : WF s2 := Angel.cc_WF pr hpr _ s2 hcc hwu
              cases hnnv : nm_next_vertex pr s2 with
              | none => rw [hnnv] at h; exact Option.noConfusion h
              | some s3 =>
                rw [hnnv] at h
                dsimp only at h
                have hw3 : WF s3 := Angel.nnv_WF pr s2 s3 hnnv hw2
                split at h
                · injection h with h2; subst h2; exact hw3
                · exact ih s3 s' h hw3
          · rw [if_neg hR] at h
            dsimp only at h
            cases hnnv : nm_next_vertex pr s1 with
            | none => rw [hnnv] at h; exact Option.noConfusion h
            | some s3 =>
              rw [hnnv] at h
              dsimp only at h
              have hw3 : WF s3 := Angel.nnv_WF pr s1 s3 hnnv hw1
              split at h
              · injection h with h2; subst h2; exact hw3
              · exact ih s3 s' h hw3

theorem Angel.analyze_inv (pr : Prims) (hpr : prOK pr) (fuel : ℕ)
    (s s' : State) (t : Trial) (hw : WF s)
    (h : strategy_analyze pr fuel s t = some s') :
    WF s'
    ∧ (s'.next_id = s.next_id + 1
       ∨ (s'.next_id = s.next_id ∧ s'.state = SimplexState.CONVERGED)) := by
  unfold strategy_analyze at h
  dsimp only at h
  split at h
  · exact Option.noConfusion h
  · cases hnm : nm_algorithm pr fuel (best_update (measured_state pr s t) t) with
    | none => rw [hnm] at h; exact Option.noConfusion h
    | some s2 =>
      rw [hnm] at h
      dsimp only at h
      have hw2 : WF s2 := Angel.nm_WF pr hpr fuel _ s2 hnm
        (Angel.bu_WF _ t (Angel.ms_WF pr s t hw))
      have hn2 : s2.next_id = s.next_id := by
        rw [(Angel.nm_best pr fuel _ s2 hnm).1,
            (Angel.bu_proj (measured_state pr s t) t).2.1,
            (Angel.ms_proj pr s t).2.1]
      split at h
      · injection h with hs; subst hs
        refine ⟨hw2, Or.inl ?_⟩
        show s2.next_id + 1 = s.next_id + 1
        omega
      · rename_i hnc
        injection h with hs; subst hs
        exact ⟨hw2, Or.inr ⟨hn2, not_not.mp hnc⟩⟩

theorem Angel.rejected_inv (pr : Prims) (hpr : prOK pr) (fuel : ℕ) (s : State)
    (hint : Option (List ℚ)) (rnd : List ℚ) (m : ℕ) (hinv : emitInv s m) :
    (runOp pr fuel s (Op.rejectedOp hint rnd)).2 = []
    ∧ emitInv (runOp pr fuel s (Op.rejectedOp hint rnd)).1 m := by
  obtain ⟨hwf, hpos, hm, hJ⟩ := hinv
  have hn : nextOK s := hwf.2.2.2.2
  cases hint with
  | some hterm =>
      have hr : strategy_rejected pr fuel s (some hterm) rnd
          = some (⟨(getNext s).id, hterm⟩,
              modifyNext s
                (fun v => { v with id := (getNext s).id, term := hterm })) := by
        unfold strategy_rejected
        dsimp only
      dsimp only [runOp]
      rw [hr]
      dsimp only
      refine ⟨rfl, Angel.modifyNext_WF s _ hwf, ?_, ?_, ?_⟩
      · rw [(Angel.modifyNext_proj s _).2.2.2.1]; exact hpos
      · rw [(Angel.modifyNext_proj s _).2.2.2.1]; exact hm
      · intro hmeq
        rw [(Angel.modifyNext_proj s _).2.2.2.1] at hmeq
        rcases hJ hmeq with hbl | hcv
        · left
          rw [Angel.getNext_modifyNext s _ hn,
              (Angel.modifyNext_proj s _).2.2.2.1]
          exact hbl
        · right
          rw [(Angel.modifyNext_proj s _).2.2.2.2.2]
          exact hcv
  | none =>
      cases hrt : s.reject_type with
      | penalty =>
          cases hnm : nm_algorithm pr fuel
              (modifyNext s (fun v => { v with perf := hperf_reset v.perf })) with
          | none =>
              have hr : strategy_rejected pr fuel s none rnd = none := by
                unfold strategy_rejected
                dsimp only
                rw [hrt]
                dsimp only
                rw [hnm]
              dsimp only [runOp]
              rw [hr]
              exact ⟨rfl, hwf, hpos, hm, hJ⟩
          | some s3 =>
              have hr : strategy_rejected pr fuel s none rnd
                  = some (vertex_point (getNext (modifyNext s3
                      (fun v => { v with id := s3.next_id }))),
                    modifyNext s3 (fun v => { v with id := s3.next_id })) := by
                unfold strategy_rejected
                dsimp only
                rw [hrt]
                dsimp only
                rw [hnm]
              have hw3 : WF s3 := Angel.nm_WF pr hpr fuel _ s3 hnm
                (Angel.modifyNext_WF s _ hwf)
              have hn3 : s3.next_id = s.next_id := by
                rw [(Angel.nm_best pr fuel _ s3 hnm).1,
                    (Angel.modifyNext_proj s _).2.2.2.1]
              dsimp only [runOp]
              rw [hr]
              dsimp only
              refine ⟨rfl, Angel.modifyNext_WF s3 _ hw3, ?_, ?_,
                fun hmeq => Or.inl ?_⟩
              · rw [(Angel.modifyNext_proj s3 _).2.2.2.1, hn3]; exact hpos
              · rw [(Angel.modifyNext_proj s3 _).2.2.2.1, hn3]; exact hm
              · rw [Angel.getNext_modifyNext s3 _ hw3.2.2.2.2,
                    (Angel.modifyNext_proj s3 _).2.2.2.1]
      | random =>
          have hr : strategy_rejected pr fuel s none rnd
              = some (vertex_point (getNext (modifyNext s
                  (fun v => { v with term := rnd, id := s.next_id }))),
                modifyNext s (fun v => { v with term := rnd, id := s.next_id })) := by
            unfold strategy_rejected
            dsimp only
            rw [hrt]
          dsimp only [runOp]
          rw [hr]
          dsimp only
          refine ⟨rfl, Angel.modifyNext_WF s _ hwf, ?_, ?_,
            fun hmeq => Or.inl ?_⟩
          · rw [(Angel.modifyNext_proj s _).2.2.2.1]; exact hpos
          · rw [(Angel.modifyNext_proj s _).2.2.2.1]; exact hm
          · rw [Angel.getNext_modifyNext s _ hn,
                (Angel.modifyNext_proj s _).2.2.2.1]

theorem Angel.op_step (pr : Prims) (hpr : prOK pr) (fuel : ℕ) (s : State)
    (m : ℕ) (o : Op) (hinv : emitInv s m) :
    ((runOp pr fuel s o).2 = [] ∧ emitInv (runOp pr fuel s o).1 m)
    ∨ (s.state ≠ SimplexState.CONVERGED
       ∧ (runOp pr fuel s o).2 = [(false, s.next_id)]
       ∧ m < s.next_id ∧ emitInv (runOp pr fuel s o).1 s.next_id)
    ∨ (s.state = SimplexState.CONVERGED
       ∧ (runOp pr fuel s o).2 = [(true, s.next_id)]
       ∧ emitInv (runOp pr fuel s o).1 m
       ∧ (runOp pr fuel s o).1.state = SimplexState.CONVERGED) := by
  obtain ⟨hwf, hpos, hm, hJ⟩ := hinv
  have hn : nextOK s := hwf.2.2.2.2
  cases o with
  | gen =>
      rcases Angel.gen_step pr fuel s hn with
        ⟨hb, hr⟩ | ⟨hb, h2, hid, hok, hnid, hst, heq1⟩
      · left
        rw [hr]
        exact ⟨rfl, hwf, hpos, hm, hJ⟩
      · have hwf' : WF (runOp pr fuel s Op.gen).1 := by
          rw [heq1]
          exact Angel.modifyNext_WF s _ hwf
        by_cases hcv : s.state = SimplexState.CONVERGED
        · right; right
          refine ⟨hcv, ?_, ⟨hwf', ?_, ?_, fun _ => Or.inr ?_⟩, ?_⟩
          · rw [h2, hcv]
            simp
          · rw [hnid]; exact hpos
          · rw [hnid]; exact hm
          · rw [hst]; exact hcv
          · rw [hst]; exact hcv
        · right; left
          have hlt : m < s.next_id := by
            rcases Nat.lt_or_ge m s.next_id with hlt | hge
            · exact hlt
            · have heq : m = s.next_id := by omega
              rcases hJ heq with hbl | hcv2
              · exact absurd hbl hb
              · exact absurd hcv2 hcv
          refine ⟨hcv, ?_, hlt, hwf', ?_, ?_, fun _ => Or.inl ?_⟩
          · rw [h2]
            simp [hcv]
          · rw [hnid]; exact hpos
          · rw [hnid]
          · rw [hid, hnid]
  | analyze t =>
      cases ha : strategy_analyze pr fuel s t with
      | none =>
          left
          dsimp only [runOp]
          rw [ha]
          dsimp only
          exact ⟨rfl, hwf, hpos, hm, hJ⟩
      | some s2 =>
          obtain ⟨aw, hcase⟩ := Angel.analyze_inv pr hpr fuel s s2 t hwf ha
          left
          dsimp only [runOp]
          rw [ha]
          dsimp only
          refine ⟨rfl, aw, ?_, ?_, ?_⟩
          · rcases hcase with h1 | ⟨h1, _⟩ <;> omega
          · rcases hcase with h1 | ⟨h1, _⟩ <;> omega
          · intro hmeq
            rcases hcase with h1 | ⟨h1, hcv⟩
            · exfalso
              omega
            · exact Or.inr hcv
  | rejectedOp hint rnd =>
      left
      exact Angel.rejected_inv pr hpr fuel s hint rnd m ⟨hwf, hpos, hm, hJ⟩

theorem Angel.trace_inv (pr : Prims) (hpr : prOK pr) (fuel : ℕ) :
    ∀ (ops : List Op) (s : State) (m : ℕ), emitInv s m →
      (∀ e ∈ (runOps pr fuel s ops).2, 1 ≤ e.2 ∧ (e.1 = false → m < e.2))
      ∧ (runOps pr fuel s ops).2.Pairwise
          (fun a b => b.1 = false → a.2 < b.2) := by
  intro ops
  induction ops with
  | nil =>
      intro s m _
      exact ⟨by simp [runOps], by simp [runOps]⟩
  | cons o rest ih =>
      intro s m hinv
      have hE : (runOps pr fuel s (o :: rest)).2
          = (runOp pr fuel s o).2
            ++ (runOps pr fuel (runOp pr fuel s o).1 rest).2 := by
        simp only [runOps]
      rcases Angel.op_step pr hpr fuel s m o hinv with
        ⟨hz, hinv'⟩ | ⟨hnc, he, hlt, hinv'⟩ | ⟨hcv, he, hinv', hcv'⟩
      · obtain ⟨i1, i2⟩ := ih (runOp pr fuel s o).1 m hinv'
        rw [hE, hz, List.nil_append]
        exact ⟨i1, i2⟩
      · obtain ⟨i1, i2⟩ := ih (runOp pr fuel s o).1 s.next_id hinv'
        rw [hE, he, List.singleton_append]
        refine ⟨?_, List.pairwise_cons.mpr ⟨?_, i2⟩⟩
        · intro e hme
          rcases List.mem_cons.mp hme with he0 | her
          · subst he0
            exact ⟨hinv.2.1, fun _ => hlt⟩
          · obtain ⟨j1, j2⟩ := i1 e her
            exact ⟨j1, fun hf => lt_trans hlt (j2 hf)⟩
        · intro b hb hf
          exact (i1 b hb).2 hf
      · have hnOK : nextOK (runOp pr fuel s o).1 := hinv'.1.2.2.2.2
        obtain ⟨c1, c2, c3⟩ := Angel.conv_run pr fuel rest (runOp pr fuel s o).1
          hcv' hnOK
        rw [hE, he, List.singleton_append]
        refine ⟨?_, List.pairwise_cons.mpr ⟨?_, ?_⟩⟩
        · intro e hme
          rcases List.mem_cons.mp hme with he0 | her
          · subst he0
            exact ⟨hinv.2.1, fun hf => nomatch hf⟩
          · have hbq := c2 e her
            rw [hbq]
            exact ⟨hinv'.2.1, fun hf => nomatch hf⟩
        · intro b hb hf
          have hbq := c2 b hb
          rw [hbq] at hf
          exact nomatch hf
        · refine List.pairwise_of_forall_mem_list ?_
          intro a ha b hb hf
          have hbq := c2 b hb
          rw [hbq] at hf
          exact nomatch hf

/-- C8 (counterexample): the flat-measurement ANGEL run emits candidate ids
1..10 and then, after convergence, re-emits id 10, so the ids emitted by one
search instance are not strictly increasing. -/
theorem claim_C8_counterexample :
    runResult.2.map Prod.snd = [1, 2, 3, 4, 5, 6, 7, 8, 9, 10, 10]
    ∧ ¬ (runResult.2.map Prod.snd).Pairwise (· < ·) := by
  have h1 : runResult.2.map Prod.snd
      = [1, 2, 3, 4, 5, 6, 7, 8, 9, 10, 10] := by rfl
  refine ⟨h1, ?_⟩
  rw [h1]
  decide

/-- C8 (amended): PRO's fetch ids strictly increase unconditionally, and
stay positive when the counter starts at 1 or above; for ANGEL, under the
interface id invariant `emitInv`, every emitted id is positive, every
emission made while the machine is not converged strictly exceeds the bound
`m` on previously emitted ids, and ids strictly increase into every
not-yet-converged emission; only the single post-convergence re-emission
(flagged `true`) may repeat an id. -/
theorem claim_C8_amended :
    (∀ (dist : List ℚ → List ℚ → ℚ) (fuel : ℕ) (st : ProState)
        (ops : List POp), 1 ≤ st.next_id →
      (runPOps dist fuel st ops).2.Pairwise (· < ·)
      ∧ ∀ i ∈ (runPOps dist fuel st ops).2, 1 ≤ i)
    ∧ (∀ (pr : Prims) (fuel : ℕ) (s : State) (m : ℕ) (ops : List Op),
        prOK pr → emitInv s m →
      (runOps pr fuel s ops).2.Pairwise (fun a b => b.1 = false → a.2 < b.2)
      ∧ ∀ e ∈ (runOps pr fuel s ops).2, 1 ≤ e.2 ∧ (e.1 = false → m < e.2)) := by
  constructor
  · intro dist fuel st ops hpos
    obtain ⟨i1, i2⟩ := Pro.ptrace dist fuel ops st
    exact ⟨i2, fun i hi => le_trans hpos (i1 i hi)⟩
  · intro pr fuel s m ops hpr hinv
    obtain ⟨i1, i2⟩ := Angel.trace_inv pr hpr fuel ops s m hinv
    exact ⟨i2, i1⟩

/-- C8 (witness): the amended statement exercised at concrete states: the
default PRO state fetching twice, and the wellformed ANGEL state `sInv`
with emission bound 3. -/
theorem claim_C8_amended_witness :
    (1 ≤ (default : ProState).next_id
     ∧ (runPOps dist1 3 default [POp.fetch, POp.fetch]).2.Pairwise (· < ·))
    ∧ (emitInv sInv 3
       ∧ (runOps prAny 3 sInv [Op.gen, Op.gen]).2.Pairwise
           (fun a b => b.1 = false → a.2 < b.2)) := by
  have hprAny : prOK prAny := by
    intro sp ip r rows h
    injection h with h2
    rw [← h2]
    simp
  have hinv : emitInv sInv 3 :=
    ⟨⟨by decide, by decide, by decide, by decide, fun i h => nomatch h⟩,
     by decide, by decide, fun h => absurd h (by decide)⟩
  refine ⟨⟨by decide, ?_⟩, ⟨hinv, ?_⟩⟩
  · exact ((claim_C8_amended.1 dist1 3 default [POp.fetch, POp.fetch])
      (by decide)).1
  · exact (claim_C8_amended.2 prAny 3 sInv 3 [Op.gen, Op.gen] hprAny hinv).1

end Theorems
